import Mathlib

/-!
Bitshift: a keyed bit-transposition cipher.

Shallow embedding of `src/Main.cpp`.

* The process-wide pseudorandom source (`srand` / `rand`) is library code.  It is
  a parameter of the embedding: `rand : Nat → Nat` is the sequence of values that
  successive calls of `rand()` return after seeding, and a position `pos` counts
  the calls made so far.
* Bytes (`char`, `unsigned char`) are natural numbers below 256.
* The rejection loop of `nextIndex` need not terminate on an arbitrary draw
  sequence, so it carries a bound `fuel` on the number of draws of one call;
  `none` means the bound was exhausted.
-/

namespace Bitshift

/-! ## IndexGenerator -/

/-- The `do ... while` loop of `IndexGenerator::nextIndex` (lines 45-47): draw
`r = rand() % 8` until the bit of `r` in the index record is unset.  Returns the
accepted `r` and the position in the draw sequence after the last draw.  The
value `r` is below 8, so storing it in a `uint16_t` does not change it. -/
def rejectLoop (rand : Nat → Nat) (indexRecord : Nat) : Nat → Nat → Option (Nat × Nat)
  | 0, _ => none
  | fuel + 1, pos =>
    let r := rand pos % 8
    if (indexRecord &&& (1 <<< r)) > 0 then rejectLoop rand indexRecord fuel (pos + 1)
    else some (r, pos + 1)

/-- Line 43 of `nextIndex`: an all-ones index record is reset to zero. -/
def resetRecord (indexRecord : Nat) : Nat :=
  if indexRecord = 0b11111111 then 0b00000000 else indexRecord

/-- The method `IndexGenerator::nextIndex` (lines 42-50).  Input: the position in
the draw sequence and the generator's index record.  Output: the returned index,
the new position and the new index record (an `unsigned char`, hence `% 256`). -/
def nextIndex (rand : Nat → Nat) (fuel pos indexRecord : Nat) : Option (Nat × Nat × Nat) :=
  match rejectLoop rand (resetRecord indexRecord) fuel pos with
  | none => none
  | some (r, pos') => some (r, pos', (resetRecord indexRecord ||| (1 <<< r)) % 256)

/-- Repeated calls of `nextIndex` on one generator, `n` of them, each starting
where the previous one left the draw sequence.  Returns the indices in call
order, the final position and the final index record. -/
def nextIndexN (rand : Nat → Nat) (fuel : Nat) : Nat → Nat → Nat → Option (List Nat × Nat × Nat)
  | 0, pos, indexRecord => some ([], pos, indexRecord)
  | n + 1, pos, indexRecord =>
    match nextIndex rand fuel pos indexRecord with
    | none => none
    | some (r, pos', record') =>
      match nextIndexN rand fuel n pos' record' with
      | none => none
      | some (rs, pos'', record'') => some (r :: rs, pos'', record'')

/-! ## The bit-copy primitive -/

/-- Integral promotion of a (signed) `char` holding the byte `c` to a 32-bit
`int`, as a two's complement bit pattern: bytes with bit 7 set are negative and
get sign-extended. -/
def charToInt (c : Nat) : Nat :=
  if c < 128 then c else c + (2 ^ 32 - 256)

/-- The comparison `v > 0` on a 32-bit `int` given as a two's complement
bit pattern. -/
def intPositive (v : Nat) : Bool :=
  decide (0 < v ∧ v < 2 ^ 31)

/-- The function `process` (lines 57-60).  Both characters are passed by
pointer; the result is the pair (contents of `*sourceChar`, contents of
`*destChar`) after the call.  The bit indices are taken in [0, 31], where the
shifts of the `int` constant 1 are defined. -/
def process (sourceChar destChar bitFromSource bitToDest : Nat) : Nat × Nat :=
  let targetBit : Nat :=
    if intPositive (charToInt sourceChar &&& (1 <<< bitFromSource)) then 0b1 else 0b0
  (sourceChar, (charToInt destChar ||| (targetBit <<< bitToDest)) % 256)

/-! ## The main loop -/

/-- The mutable state shared by the iterations of the main loop: the number of
`rand()` calls made so far and the index records of the two generators. -/
structure GenState where
  pos : Nat
  sourceGen : Nat
  destGen : Nat
  deriving DecidableEq, Repr

/-- The state at line 102: nothing drawn yet, both generators freshly
constructed (index record `0b00000000`). -/
def freshState : GenState := ⟨0, 0, 0⟩

/-- The inner `for (int i = 0; i < 8; i++)` loop (lines 109-121), with `n`
iterations left.  Returns the contents of `*inC` and `*outC` after the loop,
the list of the pairs `(indexA, indexB)` drawn (a ghost trace, in order) and
the generator state. -/
def innerLoop (rand : Nat → Nat) (fuel : Nat) (decrypt : Bool) :
    Nat → Nat → Nat → GenState → Option (Nat × Nat × List (Nat × Nat) × GenState)
  | 0, inC, outC, st => some (inC, outC, [], st)
  | n + 1, inC, outC, st =>
    match nextIndex rand fuel st.pos st.sourceGen with
    | none => none
    | some (indexA, pos1, source') =>
      match nextIndex rand fuel pos1 st.destGen with
      | none => none
      | some (indexB, pos2, dest') =>
        let chars :=
          if !decrypt then process inC outC indexA indexB
          else process inC outC indexB indexA
        match innerLoop rand fuel decrypt n chars.1 chars.2 ⟨pos2, source', dest'⟩ with
        | none => none
        | some (inC', outC', pairs, st') => some (inC', outC', (indexA, indexB) :: pairs, st')

/-- What a run of the main loop leaves behind: the bytes written to the output
file, the pairs drawn for each byte (ghost trace) and the final generator
state. -/
structure Run where
  out : List Nat
  pairs : List (List (Nat × Nat))
  st : GenState
  deriving DecidableEq, Repr

/-- The main loop (lines 107-127) over the bytes still to be read.  `outC` is
the current contents of `*outC`: the loop writes it after the 8 iterations and
the increment expression `(*outC) = 0b00000000` clears it. -/
def mainLoop (rand : Nat → Nat) (fuel : Nat) (decrypt : Bool) :
    List Nat → Nat → GenState → Option Run
  | [], _, st => some ⟨[], [], st⟩
  | inC :: rest, outC, st =>
    match innerLoop rand fuel decrypt 8 inC outC st with
    | none => none
    | some (_, outC', pairs, st') =>
      match mainLoop rand fuel decrypt rest 0b00000000 st' with
      | none => none
      | some run => some ⟨outC' :: run.out, pairs :: run.pairs, run.st⟩

/-- Lines 100-127: two fresh generators, `outC = new char()` (zero), then the
main loop over the whole input. -/
def bitshift (rand : Nat → Nat) (fuel : Nat) (decrypt : Bool) (input : List Nat) : Option Run :=
  mainLoop rand fuel decrypt input 0 freshState

/-- Lines 86-87: `srand(keyHash)` converts the `size_t` hash to `unsigned int`. -/
def seedOf (hash : String → Nat) (key : String) : Nat :=
  hash key % 2 ^ 32

/-- The whole program after argument parsing, given the library's string hash
and the library's generator `srand` (seed to draw sequence). -/
def bitshiftMain (hash : String → Nat) (srand : Nat → Nat → Nat) (key : String)
    (fuel : Nat) (decrypt : Bool) (input : List Nat) : Option Run :=
  bitshift (srand (seedOf hash key)) fuel decrypt input

/-- The call `sourceGen->nextIndex()` of line 112 as a step on the whole program
state: the returned index and the state after the call.  The call reads and
writes the record of the source generator only, and draws from the shared
pseudorandom source. -/
def sourceNext (rand : Nat → Nat) (fuel : Nat) (st : GenState) : Option (Nat × GenState) :=
  match nextIndex rand fuel st.pos st.sourceGen with
  | none => none
  | some (r, pos', record') => some (r, ⟨pos', record', st.destGen⟩)

/-- The call `destGen->nextIndex()` of line 113 as a step on the whole program
state. -/
def destNext (rand : Nat → Nat) (fuel : Nat) (st : GenState) : Option (Nat × GenState) :=
  match nextIndex rand fuel st.pos st.destGen with
  | none => none
  | some (r, pos', record') => some (r, ⟨pos', st.sourceGen, record'⟩)

/-! ## Specification-level notions used in the statements -/

/-- The index record `m` is a byte whose set bits are exactly the members of
the duplicate-free list `rs` of indices in [0,7]. -/
def Records (m : Nat) (rs : List Nat) : Prop :=
  m < 256 ∧ rs.Nodup ∧ (∀ r ∈ rs, r < 8) ∧ ∀ i, m.testBit i = true ↔ i ∈ rs

/-- The effect on `*outC` of the calls of `process` made by the inner loop for
the pairs `(indexA, indexB)` in `pairs`, without the draws (lines 115-120). -/
def applyPairs (decrypt : Bool) (inC : Nat) (outC : Nat) (pairs : List (Nat × Nat)) : Nat :=
  pairs.foldl
    (fun o p => if !decrypt then (process inC o p.1 p.2).2 else (process inC o p.2 p.1).2) outC

/-- Every residue modulo 8 occurs in the draw sequence after every position:
the draw sequences on which no rejection loop runs forever, whatever the
index record. -/
def Fair (rand : Nat → Nat) : Prop :=
  ∀ pos i, i < 8 → ∃ q, pos ≤ q ∧ rand q % 8 = i

/-- Number of set bits among the bits 0..7 of `x`. -/
def bitCount (x : Nat) : Nat :=
  (List.range 8).countP (fun i => x.testBit i)

/-- A sample draw sequence for concrete evaluations. -/
def sampleRand : Nat → Nat := fun i => (i * i + 3 * i) / 5

/-- A second sample draw sequence, 0, 1, 2, ..., in which every residue
modulo 8 occurs after every position. -/
def counterRand : Nat → Nat := fun i => i

/-- A sample string hash for concrete evaluations (the library's `std::hash`
is a parameter of the embedding). -/
def sampleHash (key : String) : Nat :=
  key.toList.foldl (fun h c => 31 * h + c.toNat) 7

/-- One step of the sample generator: the linear congruential step of the
example implementation of `rand` in the C standard, on a 32-bit state. -/
def sampleNext (next : Nat) : Nat :=
  (next * 1103515245 + 12345) % 2 ^ 32

/-- State of the sample generator after `i` draws from seed `seed`. -/
def sampleState (seed : Nat) : Nat → Nat
  | 0 => seed
  | i + 1 => sampleNext (sampleState seed i)

/-- A sample seeded generator for concrete evaluations (the library's `srand`
and `rand` are parameters of the embedding): draw number `i` after seeding. -/
def sampleSrand (seed : Nat) : Nat → Nat :=
  fun i => sampleState seed (i + 1) / 65536 % 32768

end Bitshift

namespace Bitshift

/-! ## Bit-level facts -/

theorem and_one_shiftLeft_eq_zero_iff (m r : Nat) :
    m &&& (1 <<< r) = 0 ↔ m.testBit r = false := by
  rw [Nat.one_shiftLeft]
  constructor
  · intro h
    have h1 : (m &&& 2 ^ r).testBit r = false := by rw [h]; simp
    simpa [Nat.testBit_two_pow_self] using h1
  · intro h
    apply Nat.eq_of_testBit_eq
    intro i
    rw [Nat.testBit_and, Nat.testBit_two_pow, Nat.zero_testBit]
    by_cases hi : r = i
    · subst hi; simp [h]
    · simp [hi]

theorem and_one_shiftLeft_pos_iff (m r : Nat) :
    (m &&& (1 <<< r)) > 0 ↔ m.testBit r = true := by
  have h := and_one_shiftLeft_eq_zero_iff m r
  constructor
  · intro hp
    by_contra hc
    have hz := h.2 (by simpa using hc)
    omega
  · intro ht
    by_contra hc
    have hz : m &&& (1 <<< r) = 0 := by omega
    rw [h.1 hz] at ht
    exact Bool.false_ne_true ht

theorem testBit_or_one_shiftLeft (m r i : Nat) :
    (m ||| (1 <<< r)).testBit i = (m.testBit i || decide (r = i)) := by
  rw [Nat.testBit_or, Nat.one_shiftLeft, Nat.testBit_two_pow]

theorem or_one_shiftLeft_lt (m r : Nat) (hm : m < 256) (hr : r < 8) :
    m ||| (1 <<< r) < 256 := by
  have h1 : (1 : Nat) <<< r < 2 ^ 8 := by
    rw [Nat.one_shiftLeft]
    exact Nat.pow_lt_pow_right (by decide) hr
  exact Nat.or_lt_two_pow (n := 8) hm h1

theorem testBit_false_of_lt_256 (m i : Nat) (hm : m < 256) (hi : 8 ≤ i) :
    m.testBit i = false := by
  apply Nat.testBit_lt_two_pow
  calc m < 2 ^ 8 := hm
    _ ≤ 2 ^ i := Nat.pow_le_pow_right (by decide) hi

theorem eq_255_of_testBit (m : Nat) (hm : m < 256) (h : ∀ i, i < 8 → m.testBit i = true) :
    m = 255 := by
  apply Nat.eq_of_testBit_eq
  intro i
  by_cases hi : i < 8
  · rw [h i hi]
    have : (255 : Nat) = 2 ^ 8 - 1 := by decide
    rw [this, Nat.testBit_two_pow_sub_one]
    simp [hi]
  · rw [testBit_false_of_lt_256 m i hm (by omega), testBit_false_of_lt_256 255 i (by decide) (by omega)]

theorem testBit_255 (i : Nat) : (255 : Nat).testBit i = decide (i < 8) := by
  have : (255 : Nat) = 2 ^ 8 - 1 := by decide
  rw [this, Nat.testBit_two_pow_sub_one]

/-! ## The bit-copy primitive: helper lemmas -/

theorem charToInt_mod (c : Nat) (hc : c < 256) : charToInt c % 256 = c := by
  unfold charToInt
  split <;> omega

theorem testBit_charToInt (c i : Nat) (hc : c < 256) (hi : i < 8) :
    (charToInt c).testBit i = c.testBit i := by
  have h := Nat.testBit_mod_two_pow (charToInt c) 8 i
  have h8 : (2 : Nat) ^ 8 = 256 := by decide
  rw [h8, charToInt_mod c hc] at h
  rw [h]
  simp [hi]

theorem intPositive_and_one_shiftLeft (c a : Nat) (hc : c < 256) (ha : a < 8) :
    intPositive (charToInt c &&& (1 <<< a)) = c.testBit a := by
  have hle : charToInt c &&& (1 <<< a) ≤ 1 <<< a := Nat.and_le_right
  have hlt : (1 : Nat) <<< a < 2 ^ 8 := by
    rw [Nat.one_shiftLeft]
    exact Nat.pow_lt_pow_right (by decide) ha
  have h8 : (2 : Nat) ^ 8 = 256 := by decide
  have h31 : (2 : Nat) ^ 31 = 2147483648 := by decide
  have hpos := and_one_shiftLeft_pos_iff (charToInt c) a
  rw [testBit_charToInt c a hc ha] at hpos
  unfold intPositive
  by_cases ht : c.testBit a = true
  · rw [ht]
    have := hpos.2 ht
    simp only [decide_eq_true_eq]
    omega
  · have hf : c.testBit a = false := by simpa using ht
    rw [hf]
    have : ¬ (charToInt c &&& (1 <<< a)) > 0 := fun hp => ht (hpos.1 hp)
    simp only [decide_eq_false_iff_not]
    omega

theorem testBit_toNat_shiftLeft (t : Bool) (b i : Nat) :
    (t.toNat <<< b).testBit i = (decide (i = b) && t) := by
  rw [Nat.testBit_shiftLeft, Nat.testBit_bool_to_nat]
  by_cases h : i = b
  · subst h; simp
  · by_cases h2 : b ≤ i
    · have : i - b ≠ 0 := by omega
      simp [h, this]
    · simp [h, h2]

theorem process_eq (src dst a b : Nat) (hs : src < 256) (hd : dst < 256)
    (ha : a < 8) (hb : b < 8) :
    process src dst a b = (src, dst ||| ((src.testBit a).toNat <<< b)) := by
  unfold process
  simp only [intPositive_and_one_shiftLeft src a hs ha]
  have ht : (if src.testBit a = true then (1 : Nat) else 0) = (src.testBit a).toNat := by
    cases src.testBit a <;> rfl
  rw [ht]
  congr 1
  apply Nat.eq_of_testBit_eq
  intro i
  have h8 : (256 : Nat) = 2 ^ 8 := by decide
  rw [h8, Nat.testBit_mod_two_pow, Nat.testBit_or, Nat.testBit_or, testBit_toNat_shiftLeft]
  by_cases hi : i < 8
  · rw [testBit_charToInt dst i hd hi]
    simp [hi]
  · have hib : i ≠ b := by omega
    rw [testBit_false_of_lt_256 dst i hd (by omega)]
    simp [hi, hib]

theorem process_snd_testBit (src dst a b i : Nat) (hs : src < 256) (hd : dst < 256)
    (ha : a < 8) (hb : b < 8) :
    (process src dst a b).2.testBit i = (dst.testBit i || (decide (i = b) && src.testBit a)) := by
  rw [process_eq src dst a b hs hd ha hb]
  simp only [Nat.testBit_or, testBit_toNat_shiftLeft]

theorem process_snd_lt (src dst a b : Nat) : (process src dst a b).2 < 256 := by
  unfold process
  exact Nat.mod_lt _ (by decide)

/-- C8. The bit-copy primitive `process`: for all bytes `src`, `dst` (also those
with bit 7 set, negative as a signed char) and all bit indices `a`, `b` in
[0,7], the new destination byte is the old one OR (bit `a` of `src` shifted to
position `b`); bit `b` is set iff it was set or bit `a` of `src` is set, every
other bit is unchanged, no bit is cleared, the result is a byte and the source
byte is unchanged. -/
theorem process_bit_copy (src dst a b : Nat) (hs : src < 256) (hd : dst < 256)
    (ha : a < 8) (hb : b < 8) :
    (process src dst a b).2 = dst ||| ((src.testBit a).toNat <<< b) ∧
    ((process src dst a b).2.testBit b = (dst.testBit b || src.testBit a)) ∧
    (∀ i, i ≠ b → (process src dst a b).2.testBit i = dst.testBit i) ∧
    (∀ i, dst.testBit i = true → (process src dst a b).2.testBit i = true) ∧
    (process src dst a b).2 < 256 ∧
    (process src dst a b).1 = src := by
  refine ⟨?_, ?_, ?_, ?_, process_snd_lt src dst a b, rfl⟩
  · rw [process_eq src dst a b hs hd ha hb]
  · rw [process_snd_testBit src dst a b b hs hd ha hb]; simp
  · intro i hi
    rw [process_snd_testBit src dst a b i hs hd ha hb]; simp [hi]
  · intro i hi
    rw [process_snd_testBit src dst a b i hs hd ha hb]; simp [hi]

/-- Witness for C8: source byte 0x80 (negative as a signed char), destination
0x01, copying bit 7 to bit 3. -/
theorem process_bit_copy_witness :
    (process 0x80 0x01 7 3).2 = 0x01 ||| (((0x80 : Nat).testBit 7).toNat <<< 3) ∧
    ((process 0x80 0x01 7 3).2.testBit 3 = ((0x01 : Nat).testBit 3 || (0x80 : Nat).testBit 7)) ∧
    (∀ i, i ≠ 3 → (process 0x80 0x01 7 3).2.testBit i = (0x01 : Nat).testBit i) ∧
    (∀ i, (0x01 : Nat).testBit i = true → (process 0x80 0x01 7 3).2.testBit i = true) ∧
    (process 0x80 0x01 7 3).2 < 256 ∧
    (process 0x80 0x01 7 3).1 = 0x80 :=
  process_bit_copy 0x80 0x01 7 3 (by decide) (by decide) (by decide) (by decide)

/-! ## The rejection loop -/

theorem rejectLoop_some (rand : Nat → Nat) (m : Nat) :
    ∀ fuel pos r pos', rejectLoop rand m fuel pos = some (r, pos') →
      pos < pos' ∧ pos' ≤ pos + fuel ∧ r = rand (pos' - 1) % 8 ∧ m.testBit r = false ∧
      ∀ p, pos ≤ p → p < pos' - 1 → m.testBit (rand p % 8) = true := by
  intro fuel
  induction fuel with
  | zero => intro pos r pos' h; simp [rejectLoop] at h
  | succ f ih =>
    intro pos r pos' h
    simp only [rejectLoop] at h
    by_cases hc : (m &&& (1 <<< (rand pos % 8))) > 0
    · rw [if_pos hc] at h
      obtain ⟨h1, h2, h3, h4, h5⟩ := ih (pos + 1) r pos' h
      refine ⟨by omega, by omega, h3, h4, ?_⟩
      intro p hp1 hp2
      by_cases hpp : p = pos
      · subst hpp; exact (and_one_shiftLeft_pos_iff m _).1 hc
      · exact h5 p (by omega) hp2
    · rw [if_neg hc] at h
      simp only [Option.some.injEq, Prod.mk.injEq] at h
      obtain ⟨hr, hp⟩ := h
      subst hr; subst hp
      refine ⟨by omega, by omega, by simp, ?_, ?_⟩
      · by_contra hb
        exact hc ((and_one_shiftLeft_pos_iff m _).2 (by simpa using hb))
      · intro p hp1 hp2
        simp at hp2
        omega

theorem rejectLoop_first (rand : Nat → Nat) (m : Nat) :
    ∀ k pos fuel, k < fuel →
      (∀ p, pos ≤ p → p < pos + k → m.testBit (rand p % 8) = true) →
      m.testBit (rand (pos + k) % 8) = false →
      rejectLoop rand m fuel pos = some (rand (pos + k) % 8, pos + k + 1) := by
  intro k
  induction k with
  | zero =>
    intro pos fuel hf _ hfree
    obtain ⟨f, rfl⟩ : ∃ f, fuel = f + 1 := ⟨fuel - 1, by omega⟩
    simp only [rejectLoop]
    have hc : ¬ (m &&& (1 <<< (rand pos % 8))) > 0 := by
      intro hp
      have := (and_one_shiftLeft_pos_iff m _).1 hp
      simp at hfree
      rw [hfree] at this
      exact Bool.false_ne_true this
    rw [if_neg hc]
    simp
  | succ k ih =>
    intro pos fuel hf hused hfree
    obtain ⟨f, rfl⟩ : ∃ f, fuel = f + 1 := ⟨fuel - 1, by omega⟩
    simp only [rejectLoop]
    have hc : (m &&& (1 <<< (rand pos % 8))) > 0 :=
      (and_one_shiftLeft_pos_iff m _).2 (hused pos (le_refl _) (by omega))
    rw [if_pos hc]
    have h := ih (pos + 1) f (by omega)
      (fun p hp1 hp2 => hused p (by omega) (by omega))
      (by rw [show pos + 1 + k = pos + (k + 1) by omega]; exact hfree)
    rw [h]
    simp only [Option.some.injEq, Prod.mk.injEq]
    constructor
    · rw [show pos + 1 + k = pos + (k + 1) by omega]
    · omega

theorem rejectLoop_mono (rand : Nat → Nat) (m : Nat) :
    ∀ fuel fuel' pos v, fuel ≤ fuel' → rejectLoop rand m fuel pos = some v →
      rejectLoop rand m fuel' pos = some v := by
  intro fuel
  induction fuel with
  | zero => intro fuel' pos v _ h; simp [rejectLoop] at h
  | succ f ih =>
    intro fuel' pos v hle h
    obtain ⟨f', rfl⟩ : ∃ f', fuel' = f' + 1 := ⟨fuel' - 1, by omega⟩
    simp only [rejectLoop] at h ⊢
    by_cases hc : (m &&& (1 <<< (rand pos % 8))) > 0
    · rw [if_pos hc] at h ⊢
      exact ih f' (pos + 1) v (by omega) h
    · rw [if_neg hc] at h ⊢
      exact h

/-! ## Index records -/

theorem records_zero : Records 0 [] := by
  refine ⟨by decide, List.nodup_nil, ?_, ?_⟩
  · intro r hr; simp at hr
  · intro i; simp

theorem resetRecord_lt (m : Nat) (hm : m < 256) : resetRecord m < 256 := by
  unfold resetRecord
  split <;> omega

theorem resetRecord_of_ne (m : Nat) (hm : m ≠ 255) : resetRecord m = m := by
  unfold resetRecord
  rw [if_neg hm]

theorem resetRecord_eq_zero_iff (m : Nat) : resetRecord m = 0 ↔ m = 0 ∨ m = 255 := by
  unfold resetRecord
  split <;> omega

theorem records_full (m : Nat) (rs : List Nat) (h : Records m rs) (hlen : rs.length = 8) :
    rs.Perm (List.range 8) ∧ m = 255 := by
  obtain ⟨hm, hnd, hlt, hbits⟩ := h
  have hsub : rs.toFinset ⊆ (List.range 8).toFinset := by
    intro x hx
    simp only [List.mem_toFinset, List.mem_range] at hx ⊢
    exact hlt x hx
  have hc1 : (List.range 8).toFinset.card = 8 := by
    rw [List.toFinset_card_of_nodup (List.nodup_range 8), List.length_range]
  have hc2 : rs.toFinset.card = 8 := by
    rw [List.toFinset_card_of_nodup hnd, hlen]
  have heq := Finset.eq_of_subset_of_card_le hsub (by rw [hc1, hc2])
  have hperm := List.perm_of_nodup_nodup_toFinset_eq hnd (List.nodup_range 8) heq
  refine ⟨hperm, eq_255_of_testBit m hm ?_⟩
  intro i hi
  exact (hbits i).2 (hperm.mem_iff.2 (List.mem_range.2 hi))

theorem records_ne_255 (m : Nat) (rs : List Nat) (h : Records m rs) (hlen : rs.length < 8) :
    m ≠ 255 := by
  obtain ⟨_, hnd, _, hbits⟩ := h
  intro h255
  have hsub : (List.range 8).toFinset ⊆ rs.toFinset := by
    intro x hx
    simp only [List.mem_toFinset, List.mem_range] at hx ⊢
    apply (hbits x).1
    rw [h255, testBit_255]
    simp [hx]
  have hc1 : (List.range 8).toFinset.card = 8 := by
    rw [List.toFinset_card_of_nodup (List.nodup_range 8), List.length_range]
  have hc2 : rs.toFinset.card = rs.length := List.toFinset_card_of_nodup hnd
  have := Finset.card_le_card hsub
  omega

theorem records_ne_zero (m : Nat) (rs : List Nat) (h : Records m rs) (hne : rs ≠ []) :
    m ≠ 0 := by
  obtain ⟨_, _, _, hbits⟩ := h
  intro h0
  obtain ⟨r, rest, rfl⟩ := List.exists_cons_of_ne_nil hne
  have := (hbits r).2 (List.mem_cons_self r rest)
  rw [h0, Nat.zero_testBit] at this
  exact Bool.false_ne_true this

theorem records_step (m : Nat) (rs : List Nat) (r : Nat) (h : Records m rs) (hr : r < 8)
    (hfree : m.testBit r = false) :
    Records (m ||| (1 <<< r)) (rs ++ [r]) := by
  obtain ⟨hm, hnd, hlt, hbits⟩ := h
  have hnot : r ∉ rs := by
    intro hin
    rw [(hbits r).2 hin] at hfree
    exact Bool.false_ne_true hfree.symm
  refine ⟨or_one_shiftLeft_lt m r hm hr, ?_, ?_, ?_⟩
  · apply List.Nodup.append hnd (List.nodup_singleton r)
    intro x hx hx2
    simp only [List.mem_singleton] at hx2
    subst hx2
    exact hnot hx
  · intro x hx
    simp only [List.mem_append, List.mem_singleton] at hx
    rcases hx with hx | hx
    · exact hlt x hx
    · omega
  · intro i
    rw [testBit_or_one_shiftLeft]
    simp only [Bool.or_eq_true, decide_eq_true_eq, List.mem_append, List.mem_singleton]
    constructor
    · rintro (h1 | h1)
      · exact Or.inl ((hbits i).1 h1)
      · exact Or.inr h1.symm
    · rintro (h1 | h1)
      · exact Or.inl ((hbits i).2 h1)
      · exact Or.inr h1.symm

/-! ## One call of `nextIndex` -/

theorem nextIndex_some (rand : Nat → Nat) (fuel pos m r pos' m' : Nat)
    (h : nextIndex rand fuel pos m = some (r, pos', m')) :
    rejectLoop rand (resetRecord m) fuel pos = some (r, pos') ∧
    m' = (resetRecord m ||| (1 <<< r)) % 256 := by
  unfold nextIndex at h
  cases hl : rejectLoop rand (resetRecord m) fuel pos with
  | none => rw [hl] at h; simp at h
  | some v =>
    obtain ⟨r0, p0⟩ := v
    rw [hl] at h
    simp only [Option.some.injEq, Prod.mk.injEq] at h
    obtain ⟨h1, h2, h3⟩ := h
    subst h1; subst h2
    exact ⟨rfl, h3.symm⟩

theorem nextIndex_of_rejectLoop (rand : Nat → Nat) (fuel pos m r pos' : Nat)
    (h : rejectLoop rand (resetRecord m) fuel pos = some (r, pos')) :
    nextIndex rand fuel pos m = some (r, pos', (resetRecord m ||| (1 <<< r)) % 256) := by
  unfold nextIndex
  rw [h]

theorem nextIndex_mono (rand : Nat → Nat) (fuel fuel' pos m : Nat)
    (v : Nat × Nat × Nat) (hle : fuel ≤ fuel')
    (h : nextIndex rand fuel pos m = some v) : nextIndex rand fuel' pos m = some v := by
  obtain ⟨r, pos', m'⟩ := v
  obtain ⟨h1, h2⟩ := nextIndex_some rand fuel pos m r pos' m' h
  rw [nextIndex_of_rejectLoop rand fuel' pos m r pos' (rejectLoop_mono rand _ fuel fuel' pos _ hle h1), h2]

theorem nextIndex_records (rand : Nat → Nat) (fuel pos m r pos' m' : Nat) (rs : List Nat)
    (hrec : Records (resetRecord m) rs)
    (h : nextIndex rand fuel pos m = some (r, pos', m')) :
    r < 8 ∧ r ∉ rs ∧ (resetRecord m).testBit r = false ∧
    m' = resetRecord m ||| (1 <<< r) ∧ Records m' (rs ++ [r]) ∧ pos < pos' := by
  obtain ⟨h1, h2⟩ := nextIndex_some rand fuel pos m r pos' m' h
  obtain ⟨hp, _, hr, hfree, _⟩ := rejectLoop_some rand _ fuel pos r pos' h1
  have hr8 : r < 8 := by rw [hr]; exact Nat.mod_lt _ (by decide)
  have hstep := records_step _ rs r hrec hr8 hfree
  have hm' : m' = resetRecord m ||| (1 <<< r) := by
    rw [h2]; exact Nat.mod_eq_of_lt hstep.1
  refine ⟨hr8, ?_, hfree, hm', hm' ▸ hstep, hp⟩
  intro hin
  rw [(hrec.2.2.2 r).2 hin] at hfree
  exact Bool.false_ne_true hfree.symm

/-! ## Repeated calls on one generator -/

theorem nextIndexN_succ (rand : Nat → Nat) (fuel n pos m : Nat) (rs : List Nat) (p m' : Nat)
    (h : nextIndexN rand fuel (n + 1) pos m = some (rs, p, m')) :
    ∃ r p1 m1 rs', nextIndex rand fuel pos m = some (r, p1, m1) ∧
      nextIndexN rand fuel n p1 m1 = some (rs', p, m') ∧ rs = r :: rs' := by
  simp only [nextIndexN] at h
  cases h1 : nextIndex rand fuel pos m with
  | none => rw [h1] at h; simp at h
  | some v =>
    obtain ⟨r, p1, m1⟩ := v
    rw [h1] at h
    simp only at h
    cases h2 : nextIndexN rand fuel n p1 m1 with
    | none => rw [h2] at h; simp at h
    | some w =>
      obtain ⟨rs', p2, m2⟩ := w
      rw [h2] at h
      simp only [Option.some.injEq, Prod.mk.injEq] at h
      obtain ⟨e1, e2, e3⟩ := h
      subst e1; subst e2; subst e3
      exact ⟨r, p1, m1, rs', rfl, h2, rfl⟩

theorem nextIndexN_length (rand : Nat → Nat) (fuel : Nat) :
    ∀ n pos m rs p m', nextIndexN rand fuel n pos m = some (rs, p, m') → rs.length = n := by
  intro n
  induction n with
  | zero =>
    intro pos m rs p m' h
    simp only [nextIndexN, Option.some.injEq, Prod.mk.injEq] at h
    rw [← h.1]; rfl
  | succ n ih =>
    intro pos m rs p m' h
    obtain ⟨r, p1, m1, rs', _, h2, h3⟩ := nextIndexN_succ rand fuel n pos m rs p m' h
    rw [h3, List.length_cons, ih p1 m1 rs' p m' h2]

theorem nextIndexN_add (rand : Nat → Nat) (fuel : Nat) :
    ∀ a b pos m rs p m', nextIndexN rand fuel (a + b) pos m = some (rs, p, m') →
      ∃ rs1 p1 m1 rs2, nextIndexN rand fuel a pos m = some (rs1, p1, m1) ∧
        nextIndexN rand fuel b p1 m1 = some (rs2, p, m') ∧ rs = rs1 ++ rs2 := by
  intro a
  induction a with
  | zero =>
    intro b pos m rs p m' h
    rw [Nat.zero_add] at h
    exact ⟨[], pos, m, rs, rfl, h, rfl⟩
  | succ a ih =>
    intro b pos m rs p m' h
    rw [show a + 1 + b = (a + b) + 1 by omega] at h
    obtain ⟨r, p1, m1, rs', h1, h2, h3⟩ := nextIndexN_succ rand fuel (a + b) pos m rs p m' h
    obtain ⟨rs1, p2, m2, rs2, h4, h5, h6⟩ := ih b p1 m1 rs' p m' h2
    refine ⟨r :: rs1, p2, m2, rs2, ?_, h5, ?_⟩
    · simp only [nextIndexN, h1, h4]
    · rw [h3, h6]; rfl

theorem nextIndexN_records (rand : Nat → Nat) (fuel : Nat) :
    ∀ n pos m rs0 rs p m', Records (resetRecord m) rs0 → rs0.length + (n + 1) ≤ 8 →
      nextIndexN rand fuel (n + 1) pos m = some (rs, p, m') → Records m' (rs0 ++ rs) := by
  intro n
  induction n with
  | zero =>
    intro pos m rs0 rs p m' hrec _ h
    obtain ⟨r, p1, m1, rs', h1, h2, h3⟩ := nextIndexN_succ rand fuel 0 pos m rs p m' h
    simp only [nextIndexN, Option.some.injEq, Prod.mk.injEq] at h2
    obtain ⟨e1, _, e3⟩ := h2
    subst e1; subst e3; subst h3
    exact (nextIndex_records rand fuel pos m r p1 m1 rs0 hrec h1).2.2.2.2.1
  | succ n ih =>
    intro pos m rs0 rs p m' hrec hlen h
    obtain ⟨r, p1, m1, rs', h1, h2, h3⟩ := nextIndexN_succ rand fuel (n + 1) pos m rs p m' h
    have hstep := (nextIndex_records rand fuel pos m r p1 m1 rs0 hrec h1).2.2.2.2.1
    have hne : m1 ≠ 255 := records_ne_255 m1 (rs0 ++ [r]) hstep (by
      rw [List.length_append, List.length_singleton]; omega)
    have hrec' : Records (resetRecord m1) (rs0 ++ [r]) := by
      rw [resetRecord_of_ne m1 hne]; exact hstep
    have := ih p1 m1 (rs0 ++ [r]) rs' p m' hrec' (by
      rw [List.length_append, List.length_singleton]; omega) h2
    rw [h3]
    simpa using this

theorem nextIndexN_cycle (rand : Nat → Nat) (fuel pos m : Nat) (rs : List Nat) (p m' : Nat)
    (hm : resetRecord m = 0) (h : nextIndexN rand fuel 8 pos m = some (rs, p, m')) :
    rs.Perm (List.range 8) ∧ m' = 255 := by
  have hrec : Records (resetRecord m) [] := by rw [hm]; exact records_zero
  have h1 := nextIndexN_records rand fuel 7 pos m [] rs p m' hrec (by simp) h
  rw [List.nil_append] at h1
  exact records_full m' rs h1 (nextIndexN_length rand fuel 8 pos m rs p m' h)

theorem nextIndexN_cycles (rand : Nat → Nat) (fuel : Nat) :
    ∀ n pos m rs p m', resetRecord m = 0 →
      nextIndexN rand fuel (8 * n) pos m = some (rs, p, m') → resetRecord m' = 0 := by
  intro n
  induction n with
  | zero =>
    intro pos m rs p m' hm h
    simp only [Nat.mul_zero, nextIndexN, Option.some.injEq, Prod.mk.injEq] at h
    rw [← h.2.2]; exact hm
  | succ n ih =>
    intro pos m rs p m' hm h
    rw [show 8 * (n + 1) = 8 + 8 * n by omega] at h
    obtain ⟨rs1, p1, m1, rs2, h1, h2, _⟩ := nextIndexN_add rand fuel 8 (8 * n) pos m rs p m' h
    have h255 := (nextIndexN_cycle rand fuel pos m rs1 p1 m1 hm h1).2
    exact ih p1 m1 rs2 p m' (by rw [h255]; rfl) h2

/-- C3. Permutation guarantee of `nextIndex`: when `N` calls on a freshly
constructed generator all return, every complete window of 8 consecutive calls
(calls 8n+1 .. 8n+8) returned 8 values that are all in [0,7] and pairwise
distinct, that is, a permutation of 0..7. -/
theorem nextIndex_window_permutation (rand : Nat → Nat) (fuel N pos : Nat) (rs : List Nat)
    (p m' : Nat) (h : nextIndexN rand fuel N pos 0 = some (rs, p, m'))
    (n : Nat) (hn : 8 * n + 8 ≤ N) :
    ((rs.drop (8 * n)).take 8).Perm (List.range 8) ∧
    ((rs.drop (8 * n)).take 8).Nodup ∧
    (∀ r ∈ (rs.drop (8 * n)).take 8, r < 8) ∧
    ((rs.drop (8 * n)).take 8).length = 8 := by
  rw [show N = 8 * n + (8 + (N - (8 * n + 8))) by omega] at h
  obtain ⟨rs1, p1, m1, rs23, h1, h23, e1⟩ := nextIndexN_add rand fuel _ _ pos 0 rs p m' h
  obtain ⟨rs2, p2, m2, rs3, h2, _, e2⟩ := nextIndexN_add rand fuel _ _ p1 m1 rs23 p m' h23
  have hm1 := nextIndexN_cycles rand fuel n pos 0 rs1 p1 m1 rfl h1
  have hperm := (nextIndexN_cycle rand fuel p1 m1 rs2 p2 m2 hm1 h2).1
  have hl1 := nextIndexN_length rand fuel _ pos 0 rs1 p1 m1 h1
  have hl2 := nextIndexN_length rand fuel _ p1 m1 rs2 p2 m2 h2
  have hwin : (rs.drop (8 * n)).take 8 = rs2 := by
    rw [e1, e2, ← hl1, List.drop_left, ← hl2, List.take_left]
  rw [hwin]
  refine ⟨hperm, hperm.nodup_iff.2 (List.nodup_range 8), ?_, hl2⟩
  intro r hr
  exact List.mem_range.1 (hperm.mem_iff.1 hr)

/-- Witness for C3: 20 calls on the sample draw sequence, second window. -/
theorem nextIndex_window_permutation_witness :
    nextIndexN sampleRand 40 20 0 0
      = some ([0, 2, 3, 5, 6, 1, 4, 7, 6, 4, 3, 7, 1, 2, 5, 0, 5, 3, 2, 0], 37, 45) ∧
    8 * 1 + 8 ≤ 20 ∧
    ((([0, 2, 3, 5, 6, 1, 4, 7, 6, 4, 3, 7, 1, 2, 5, 0, 5, 3, 2, 0] : List Nat).drop
        (8 * 1)).take 8).Perm (List.range 8) :=
  ⟨by decide, by decide,
    (nextIndex_window_permutation sampleRand 40 20 0 _ 37 45 (by decide) 1 (by decide)).1⟩

/-- C9. Used-mask invariant of `IndexGenerator`: after `N` calls on a freshly
constructed generator the set bits of the mask are exactly the indices returned
since the last reset (the calls after the first `8 * ((N - 1) / 8)`); the mask
is all-ones exactly after each 8th call and zero only before the first call;
and a further call resets the mask only when it is all-ones, finds the bit of
the returned index unset and sets exactly that bit. -/
theorem usedMask_invariant (rand : Nat → Nat) (fuel N pos : Nat) (rs : List Nat) (p m : Nat)
    (h : nextIndexN rand fuel N pos 0 = some (rs, p, m)) :
    (∀ i, m.testBit i = true ↔ i ∈ rs.drop (8 * ((N - 1) / 8))) ∧
    (m = 255 ↔ 0 < N ∧ N % 8 = 0) ∧
    (m = 0 ↔ N = 0) ∧
    (resetRecord m ≠ m ↔ m = 255) ∧
    ∀ fuel2 pos2 r pos3 m2, nextIndex rand fuel2 pos2 m = some (r, pos3, m2) →
      r < 8 ∧ (resetRecord m).testBit r = false ∧ m2 = resetRecord m ||| (1 <<< r) ∧
      m2.testBit r = true ∧ ∀ i, i ≠ r → m2.testBit i = (resetRecord m).testBit i := by
  have hrecs : Records m (rs.drop (8 * ((N - 1) / 8))) ∧
      (rs.drop (8 * ((N - 1) / 8))).length = N - 8 * ((N - 1) / 8) := by
    rcases Nat.eq_zero_or_pos N with h0 | hpos
    · subst h0
      simp only [nextIndexN, Option.some.injEq, Prod.mk.injEq] at h
      obtain ⟨e1, _, e3⟩ := h
      subst e1; subst e3
      exact ⟨by simpa using records_zero, by simp⟩
    · obtain ⟨k, hk⟩ : ∃ k, N = 8 * ((N - 1) / 8) + (k + 1) :=
        ⟨(N - 1) % 8, by omega⟩
      have hk8 : k + 1 ≤ 8 := by omega
      have h' := h
      rw [hk] at h'
      obtain ⟨rs1, p1, m1, rs2, h1, h2, e1⟩ := nextIndexN_add rand fuel _ _ pos 0 rs p m h'
      have hm1 := nextIndexN_cycles rand fuel _ pos 0 rs1 p1 m1 rfl h1
      have hl1 := nextIndexN_length rand fuel _ pos 0 rs1 p1 m1 h1
      have hl2 := nextIndexN_length rand fuel _ p1 m1 rs2 p m h2
      have hrec : Records (resetRecord m1) [] := by rw [hm1]; exact records_zero
      have hr := nextIndexN_records rand fuel k p1 m1 [] rs2 p m hrec (by simpa using hk8) h2
      rw [List.nil_append] at hr
      have hd : rs.drop (8 * ((N - 1) / 8)) = rs2 := by
        rw [e1, ← hl1, List.drop_left]
      rw [hd]
      exact ⟨hr, by omega⟩
  obtain ⟨hrec, hlen⟩ := hrecs
  have h255 : m = 255 ↔ 0 < N ∧ N % 8 = 0 := by
    constructor
    · intro e
      by_contra hc
      have hlt : (rs.drop (8 * ((N - 1) / 8))).length < 8 := by omega
      exact records_ne_255 m _ hrec hlt e
    · rintro ⟨h1, h2⟩
      exact (records_full m _ hrec (by omega)).2
  have h0 : m = 0 ↔ N = 0 := by
    constructor
    · intro e
      by_contra hc
      have hne : rs.drop (8 * ((N - 1) / 8)) ≠ [] := by
        intro hnil
        rw [hnil] at hlen
        simp at hlen
        omega
      exact records_ne_zero m _ hrec hne e
    · intro e
      subst e
      simp only [nextIndexN, Option.some.injEq, Prod.mk.injEq] at h
      exact h.2.2.symm
  have hreset : resetRecord m ≠ m ↔ m = 255 := by
    unfold resetRecord
    split <;> omega
  refine ⟨hrec.2.2.2, h255, h0, hreset, ?_⟩
  intro fuel2 pos2 r pos3 m2 hcall
  obtain ⟨h1, h2⟩ := nextIndex_some rand fuel2 pos2 m r pos3 m2 hcall
  obtain ⟨_, _, hr, hfree, _⟩ := rejectLoop_some rand _ fuel2 pos2 r pos3 h1
  have hr8 : r < 8 := by rw [hr]; exact Nat.mod_lt _ (by decide)
  have hm2 : m2 = resetRecord m ||| (1 <<< r) := by
    rw [h2]
    exact Nat.mod_eq_of_lt (or_one_shiftLeft_lt _ r (resetRecord_lt m hrec.1) hr8)
  refine ⟨hr8, hfree, hm2, ?_, ?_⟩
  · rw [hm2, testBit_or_one_shiftLeft]; simp
  · intro i hi
    rw [hm2, testBit_or_one_shiftLeft]
    have : ¬ r = i := fun e => hi e.symm
    simp [this]

/-- Witness for C9: 11 calls on the sample draw sequence; the mask 88 has the
bits 3, 4 and 6 of the three indices returned since the reset. -/
theorem usedMask_invariant_witness :
    nextIndexN sampleRand 40 11 0 0 = some ([0, 2, 3, 5, 6, 1, 4, 7, 6, 4, 3], 19, 88) ∧
    (∀ i, (88 : Nat).testBit i = true ↔
      i ∈ ([0, 2, 3, 5, 6, 1, 4, 7, 6, 4, 3] : List Nat).drop (8 * ((11 - 1) / 8))) :=
  ⟨by decide, (usedMask_invariant sampleRand 40 11 0 _ 19 88 (by decide)).1⟩

/-! ## Termination of the rejection loop -/

theorem resetRecord_has_free (m : Nat) (hm : m < 256) :
    ∃ i, i < 8 ∧ (resetRecord m).testBit i = false := by
  by_contra hc
  have hall : ∀ i, i < 8 → (resetRecord m).testBit i = true := by
    intro i hi
    by_contra hb
    exact hc ⟨i, hi, by simpa using hb⟩
  have h255 := eq_255_of_testBit _ (resetRecord_lt m hm) hall
  unfold resetRecord at h255
  split at h255 <;> omega

theorem nextIndex_first_free (rand : Nat → Nat) (pos m q : Nat) (hq : pos ≤ q)
    (hfree : (resetRecord m).testBit (rand q % 8) = false) :
    ∃ q', pos ≤ q' ∧ q' ≤ q ∧ (resetRecord m).testBit (rand q' % 8) = false ∧
      (∀ p, pos ≤ p → p < q' → (resetRecord m).testBit (rand p % 8) = true) ∧
      ∀ fuel, q' - pos < fuel →
        nextIndex rand fuel pos m
          = some (rand q' % 8, q' + 1, (resetRecord m ||| (1 <<< (rand q' % 8))) % 256) := by
  have hex : ∃ k, (resetRecord m).testBit (rand (pos + k) % 8) = false :=
    ⟨q - pos, by rw [show pos + (q - pos) = q by omega]; exact hfree⟩
  have hspec := Nat.find_spec hex
  have hmin : ∀ k, k < Nat.find hex → (resetRecord m).testBit (rand (pos + k) % 8) = true := by
    intro k hk
    have := Nat.find_min hex hk
    simpa using this
  have hle : Nat.find hex ≤ q - pos :=
    Nat.find_min' hex (by rw [show pos + (q - pos) = q by omega]; exact hfree)
  refine ⟨pos + Nat.find hex, by omega, by omega, hspec, ?_, ?_⟩
  · intro p hp1 hp2
    have := hmin (p - pos) (by omega)
    rwa [show pos + (p - pos) = p by omega] at this
  · intro fuel hfuel
    apply nextIndex_of_rejectLoop
    apply rejectLoop_first rand _ (Nat.find hex) pos fuel (by omega) _ hspec
    intro p hp1 hp2
    have := hmin (p - pos) (by omega)
    rwa [show pos + (p - pos) = p by omega] at this

theorem nextIndex_total (rand : Nat → Nat) (hfair : Fair rand) (pos m : Nat) (hm : m < 256) :
    ∃ fuel r pos' m', nextIndex rand fuel pos m = some (r, pos', m') ∧ m' < 256 := by
  obtain ⟨i, hi, hfree⟩ := resetRecord_has_free m hm
  obtain ⟨q, hq, hqi⟩ := hfair pos i hi
  obtain ⟨q', _, _, _, _, hrun⟩ := nextIndex_first_free rand pos m q hq (by rw [hqi]; exact hfree)
  exact ⟨q' - pos + 1, _, _, _, hrun _ (by omega), Nat.mod_lt _ (by decide)⟩

/-- C10. Termination of `nextIndex`: for every mask value (a byte) the mask
with which the rejection loop is entered has at most 7 of its bits 0..7 set,
so some index in [0,7] is unused; for every draw sequence that produces, at
some position `q` from the current one on, a candidate whose mask bit is unset,
the call returns (with any bound above the number of rejected draws) the first
such candidate, having set its bit; in particular the call returns when all 8
residues occur from the current position on. -/
theorem nextIndex_terminates (rand : Nat → Nat) (pos m : Nat) (hm : m < 256) :
    ((List.range 8).filter (fun i => (resetRecord m).testBit i)).length ≤ 7 ∧
    (∃ i, i < 8 ∧ (resetRecord m).testBit i = false) ∧
    (∀ q, pos ≤ q → (resetRecord m).testBit (rand q % 8) = false →
      ∃ q', pos ≤ q' ∧ q' ≤ q ∧ (resetRecord m).testBit (rand q' % 8) = false ∧
        (∀ p, pos ≤ p → p < q' → (resetRecord m).testBit (rand p % 8) = true) ∧
        ∀ fuel, q' - pos < fuel →
          nextIndex rand fuel pos m
            = some (rand q' % 8, q' + 1, resetRecord m ||| (1 <<< (rand q' % 8)))) ∧
    ((∀ i, i < 8 → ∃ q, pos ≤ q ∧ rand q % 8 = i) →
      ∃ fuel r pos' m', nextIndex rand fuel pos m = some (r, pos', m')) := by
  have hfreeEx := resetRecord_has_free m hm
  refine ⟨?_, hfreeEx, ?_, ?_⟩
  · obtain ⟨i, hi, hfree⟩ := hfreeEx
    have hlt : ((List.range 8).filter (fun i => (resetRecord m).testBit i)).length
        < (List.range 8).length := by
      rw [List.length_filter_lt_length_iff_exists]
      exact ⟨i, List.mem_range.2 hi, by simp [hfree]⟩
    rw [List.length_range] at hlt
    omega
  · intro q hq hfree
    obtain ⟨q', h1, h2, h3, h4, h5⟩ := nextIndex_first_free rand pos m q hq hfree
    refine ⟨q', h1, h2, h3, h4, ?_⟩
    intro fuel hfuel
    rw [h5 fuel hfuel]
    have hlt := or_one_shiftLeft_lt (resetRecord m) (rand q' % 8) (resetRecord_lt m hm)
      (Nat.mod_lt _ (by decide))
    rw [Nat.mod_eq_of_lt hlt]
  · intro hall
    obtain ⟨i, hi, hfree⟩ := hfreeEx
    obtain ⟨q, hq, hqi⟩ := hall i hi
    obtain ⟨q', _, _, _, _, hrun⟩ :=
      nextIndex_first_free rand pos m q hq (by rw [hqi]; exact hfree)
    exact ⟨q' - pos + 1, _, _, _, hrun _ (by omega)⟩

/-- Witness for C10: the mask 0b10110111 at position 5 of the sample draw
sequence, in which all 8 residues occur from position 5 on. -/
theorem nextIndex_terminates_witness :
    (0b10110111 : Nat) < 256 ∧
    (∀ i, i < 8 → ∃ q, 5 ≤ q ∧ sampleRand q % 8 = i) ∧
    ∃ fuel r pos' m', nextIndex sampleRand fuel 5 0b10110111 = some (r, pos', m') :=
  have hall : ∀ i, i < 8 → ∃ q, 5 ≤ q ∧ sampleRand q % 8 = i := by
    intro i hi
    interval_cases i
    · exact ⟨5, by decide, by decide⟩
    · exact ⟨8, by decide, by decide⟩
    · exact ⟨6, by decide, by decide⟩
    · exact ⟨18, by decide, by decide⟩
    · exact ⟨12, by decide, by decide⟩
    · exact ⟨9, by decide, by decide⟩
    · exact ⟨7, by decide, by decide⟩
    · exact ⟨14, by decide, by decide⟩
  ⟨by decide, hall, (nextIndex_terminates sampleRand 5 0b10110111 (by decide)).2.2.2 hall⟩

/-! ## The inner loop -/

theorem innerLoop_succ (rand : Nat → Nat) (fuel : Nat) (d : Bool) (n inC outC : Nat)
    (st : GenState) (i' o' : Nat) (ps : List (Nat × Nat)) (st' : GenState)
    (h : innerLoop rand fuel d (n + 1) inC outC st = some (i', o', ps, st')) :
    ∃ a p1 s1 b p2 d1 ps',
      nextIndex rand fuel st.pos st.sourceGen = some (a, p1, s1) ∧
      nextIndex rand fuel p1 st.destGen = some (b, p2, d1) ∧
      innerLoop rand fuel d n inC (applyPairs d inC outC [(a, b)]) ⟨p2, s1, d1⟩
        = some (i', o', ps', st') ∧
      ps = (a, b) :: ps' := by
  simp only [innerLoop] at h
  cases h1 : nextIndex rand fuel st.pos st.sourceGen with
  | none => rw [h1] at h; simp at h
  | some v =>
    obtain ⟨a, p1, s1⟩ := v
    rw [h1] at h
    simp only at h
    cases h2 : nextIndex rand fuel p1 st.destGen with
    | none => rw [h2] at h; simp at h
    | some w =>
      obtain ⟨b, p2, d1⟩ := w
      rw [h2] at h
      simp only at h
      have hfst : (if (!d) = true then process inC outC a b else process inC outC b a).1 = inC := by
        cases d <;> rfl
      have hsnd : (if (!d) = true then process inC outC a b else process inC outC b a).2
          = applyPairs d inC outC [(a, b)] := by
        cases d <;> rfl
      rw [hfst, hsnd] at h
      cases h3 : innerLoop rand fuel d n inC (applyPairs d inC outC [(a, b)]) ⟨p2, s1, d1⟩ with
      | none => rw [h3] at h; simp at h
      | some u =>
        obtain ⟨i2, o2, ps2, st2⟩ := u
        rw [h3] at h
        simp only [Option.some.injEq, Prod.mk.injEq] at h
        obtain ⟨e1, e2, e3, e4⟩ := h
        subst e1; subst e2; subst e3; subst e4
        exact ⟨a, p1, s1, b, p2, d1, ps2, rfl, h2, h3, rfl⟩

theorem innerLoop_succ_of (rand : Nat → Nat) (fuel : Nat) (d : Bool) (n inC outC : Nat)
    (st : GenState) (a p1 s1 b p2 d1 i' o' : Nat) (ps' : List (Nat × Nat)) (st' : GenState)
    (h1 : nextIndex rand fuel st.pos st.sourceGen = some (a, p1, s1))
    (h2 : nextIndex rand fuel p1 st.destGen = some (b, p2, d1))
    (h3 : innerLoop rand fuel d n inC (applyPairs d inC outC [(a, b)]) ⟨p2, s1, d1⟩
      = some (i', o', ps', st')) :
    innerLoop rand fuel d (n + 1) inC outC st = some (i', o', (a, b) :: ps', st') := by
  simp only [innerLoop, h1, h2]
  have hfst : (if (!d) = true then process inC outC a b else process inC outC b a).1 = inC := by
    cases d <;> rfl
  have hsnd : (if (!d) = true then process inC outC a b else process inC outC b a).2
      = applyPairs d inC outC [(a, b)] := by
    cases d <;> rfl
  rw [hfst, hsnd, h3]

theorem applyPairs_cons (d : Bool) (x o : Nat) (p : Nat × Nat) (ps : List (Nat × Nat)) :
    applyPairs d x o (p :: ps) = applyPairs d x (applyPairs d x o [p]) ps := by
  simp [applyPairs]

/-- The draws of the inner loop do not depend on the mode or on the bytes: the
same pairs are drawn for any other mode, input byte and output byte, and the
output byte is the effect of the calls of `process` on those pairs. -/
theorem innerLoop_data_indep (rand : Nat → Nat) (fuel : Nat) (d : Bool) :
    ∀ n inC outC st i' o' ps st',
      innerLoop rand fuel d n inC outC st = some (i', o', ps, st') →
      i' = inC ∧ o' = applyPairs d inC outC ps ∧
      ∀ d2 x o, innerLoop rand fuel d2 n x o st = some (x, applyPairs d2 x o ps, ps, st') := by
  intro n
  induction n with
  | zero =>
    intro inC outC st i' o' ps st' h
    simp only [innerLoop, Option.some.injEq, Prod.mk.injEq] at h
    obtain ⟨e1, e2, e3, e4⟩ := h
    subst e1; subst e2; subst e3; subst e4
    refine ⟨rfl, rfl, ?_⟩
    intro d2 x o
    simp [innerLoop, applyPairs]
  | succ n ih =>
    intro inC outC st i' o' ps st' h
    obtain ⟨a, p1, s1, b, p2, d1, ps', h1, h2, h3, e⟩ :=
      innerLoop_succ rand fuel d n inC outC st i' o' ps st' h
    obtain ⟨e1, e2, hall⟩ := ih inC _ _ i' o' ps' st' h3
    subst e
    refine ⟨e1, ?_, ?_⟩
    · rw [e2, applyPairs_cons d inC outC (a, b) ps']
    · intro d2 x o
      rw [applyPairs_cons d2 x o (a, b) ps']
      exact innerLoop_succ_of rand fuel d2 n x o st a p1 s1 b p2 d1 x _ ps' st' h1 h2
        (hall d2 x _)

theorem innerLoop_records (rand : Nat → Nat) (fuel : Nat) (d : Bool) :
    ∀ n inC outC st i' o' ps st' (as bs : List Nat),
      Records (resetRecord st.sourceGen) as → Records (resetRecord st.destGen) bs →
      as.length + (n + 1) ≤ 8 → bs.length + (n + 1) ≤ 8 →
      innerLoop rand fuel d (n + 1) inC outC st = some (i', o', ps, st') →
      Records st'.sourceGen (as ++ ps.map Prod.fst) ∧
      Records st'.destGen (bs ++ ps.map Prod.snd) ∧
      ps.length = n + 1 ∧ st.pos < st'.pos := by
  intro n
  induction n with
  | zero =>
    intro inC outC st i' o' ps st' as bs ha hb _ _ h
    obtain ⟨a, p1, s1, b, p2, d1, ps', h1, h2, h3, e⟩ :=
      innerLoop_succ rand fuel d 0 inC outC st i' o' ps st' h
    simp only [innerLoop, Option.some.injEq, Prod.mk.injEq] at h3
    obtain ⟨_, _, e3, e4⟩ := h3
    subst e3; subst e4; subst e
    have ra := nextIndex_records rand fuel st.pos st.sourceGen a p1 s1 as ha h1
    have rb := nextIndex_records rand fuel p1 st.destGen b p2 d1 bs hb h2
    exact ⟨ra.2.2.2.2.1, rb.2.2.2.2.1, rfl, by have := ra.2.2.2.2.2; have := rb.2.2.2.2.2; simp only; omega⟩
  | succ n ih =>
    intro inC outC st i' o' ps st' as bs ha hb hla hlb h
    obtain ⟨a, p1, s1, b, p2, d1, ps', h1, h2, h3, e⟩ :=
      innerLoop_succ rand fuel d (n + 1) inC outC st i' o' ps st' h
    subst e
    have ra := nextIndex_records rand fuel st.pos st.sourceGen a p1 s1 as ha h1
    have rb := nextIndex_records rand fuel p1 st.destGen b p2 d1 bs hb h2
    have hla' : (as ++ [a]).length + (n + 1) ≤ 8 := by
      rw [List.length_append, List.length_singleton]; omega
    have hlb' : (bs ++ [b]).length + (n + 1) ≤ 8 := by
      rw [List.length_append, List.length_singleton]; omega
    have hs1 : resetRecord s1 = s1 :=
      resetRecord_of_ne s1 (records_ne_255 s1 _ ra.2.2.2.2.1 (by omega))
    have hd1 : resetRecord d1 = d1 :=
      resetRecord_of_ne d1 (records_ne_255 d1 _ rb.2.2.2.2.1 (by omega))
    have := ih inC _ ⟨p2, s1, d1⟩ i' o' ps' st' (as ++ [a]) (bs ++ [b])
      (by rw [hs1]; exact ra.2.2.2.2.1) (by rw [hd1]; exact rb.2.2.2.2.1) hla' hlb' h3
    obtain ⟨r1, r2, r3, r4⟩ := this
    refine ⟨by simpa using r1, by simpa using r2, by simp [r3], ?_⟩
    have := ra.2.2.2.2.2; have := rb.2.2.2.2.2
    simp only at r4
    omega

/-- At a byte boundary (each index record all-zero or all-ones) the 8 source
indices and the 8 destination indices of one byte are permutations of 0..7 and
both index records end all-ones. -/
theorem innerLoop_boundary (rand : Nat → Nat) (fuel : Nat) (d : Bool) (inC outC : Nat)
    (st : GenState) (i' o' : Nat) (ps : List (Nat × Nat)) (st' : GenState)
    (hs : resetRecord st.sourceGen = 0) (hd : resetRecord st.destGen = 0)
    (h : innerLoop rand fuel d 8 inC outC st = some (i', o', ps, st')) :
    (ps.map Prod.fst).Perm (List.range 8) ∧ (ps.map Prod.snd).Perm (List.range 8) ∧
    st'.sourceGen = 255 ∧ st'.destGen = 255 ∧ ps.length = 8 := by
  have ha : Records (resetRecord st.sourceGen) [] := by rw [hs]; exact records_zero
  have hb : Records (resetRecord st.destGen) [] := by rw [hd]; exact records_zero
  obtain ⟨r1, r2, r3, _⟩ :=
    innerLoop_records rand fuel d 7 inC outC st i' o' ps st' [] [] ha hb (by simp) (by simp) h
  rw [List.nil_append] at r1 r2
  have f1 := records_full _ _ r1 (by rw [List.length_map]; exact r3)
  have f2 := records_full _ _ r2 (by rw [List.length_map]; exact r3)
  exact ⟨f1.1, f2.1, f1.2, f2.2, r3⟩

/-! ## The bit mapping of one byte -/

theorem applyPairs_lt (d : Bool) (x o : Nat) (ho : o < 256) :
    ∀ ps : List (Nat × Nat), applyPairs d x o ps < 256 := by
  intro ps
  induction ps generalizing o with
  | nil => simpa [applyPairs] using ho
  | cons p ps ih =>
    rw [applyPairs_cons]
    apply ih
    cases d
    · exact process_snd_lt x o p.1 p.2
    · exact process_snd_lt x o p.2 p.1

theorem applyPairs_swap (x : Nat) :
    ∀ (ps : List (Nat × Nat)) (o : Nat),
      applyPairs true x o ps = applyPairs false x o (ps.map Prod.swap) := by
  intro ps
  induction ps with
  | nil => intro o; rfl
  | cons p ps ih =>
    intro o
    rw [List.map_cons, applyPairs_cons true, applyPairs_cons false, ih]
    rfl

theorem applyPairs_encrypt_testBit (x : Nat) (hx : x < 256) (i : Nat) :
    ∀ (ps : List (Nat × Nat)) (o : Nat), o < 256 → (∀ p ∈ ps, p.1 < 8 ∧ p.2 < 8) →
      ((applyPairs false x o ps).testBit i = true ↔
        o.testBit i = true ∨ ∃ p ∈ ps, p.2 = i ∧ x.testBit p.1 = true) := by
  intro ps
  induction ps with
  | nil => intro o _ _; simp [applyPairs]
  | cons p ps ih =>
    intro o ho hps
    have hp := hps p (List.mem_cons_self p ps)
    have hrest : ∀ q ∈ ps, q.1 < 8 ∧ q.2 < 8 := fun q hq => hps q (List.mem_cons_of_mem p hq)
    have hone : applyPairs false x o [p] = (process x o p.1 p.2).2 := rfl
    rw [applyPairs_cons, ih _ (by rw [hone]; exact process_snd_lt x o p.1 p.2) hrest, hone,
      process_snd_testBit x o p.1 p.2 i hx ho hp.1 hp.2]
    simp only [Bool.or_eq_true, Bool.and_eq_true, decide_eq_true_eq, List.mem_cons,
      exists_eq_or_imp]
    constructor
    · rintro ((h1 | ⟨h1, h2⟩) | h3)
      · exact Or.inl h1
      · exact Or.inr (Or.inl ⟨h1.symm, h2⟩)
      · exact Or.inr (Or.inr h3)
    · rintro (h1 | ⟨h1, h2⟩ | h3)
      · exact Or.inl (Or.inl h1)
      · exact Or.inl (Or.inr ⟨h1.symm, h2⟩)
      · exact Or.inr h3

theorem applyPairs_decrypt_testBit (x : Nat) (hx : x < 256) (i : Nat)
    (ps : List (Nat × Nat)) (o : Nat) (ho : o < 256) (hps : ∀ p ∈ ps, p.1 < 8 ∧ p.2 < 8) :
    ((applyPairs true x o ps).testBit i = true ↔
      o.testBit i = true ∨ ∃ p ∈ ps, p.1 = i ∧ x.testBit p.2 = true) := by
  rw [applyPairs_swap, applyPairs_encrypt_testBit x hx i _ o ho]
  · constructor
    · rintro (h | ⟨q, hq, h1, h2⟩)
      · exact Or.inl h
      · obtain ⟨p, hp, rfl⟩ := List.mem_map.1 hq
        exact Or.inr ⟨p, hp, h1, h2⟩
    · rintro (h | ⟨p, hp, h1, h2⟩)
      · exact Or.inl h
      · exact Or.inr ⟨p.swap, List.mem_map.2 ⟨p, hp, rfl⟩, h1, h2⟩
  · intro q hq
    obtain ⟨p, hp, rfl⟩ := List.mem_map.1 hq
    exact ⟨(hps p hp).2, (hps p hp).1⟩

theorem pairs_lt_of_perm (ps : List (Nat × Nat))
    (h1 : (ps.map Prod.fst).Perm (List.range 8)) (h2 : (ps.map Prod.snd).Perm (List.range 8)) :
    ∀ p ∈ ps, p.1 < 8 ∧ p.2 < 8 := by
  intro p hp
  exact ⟨List.mem_range.1 (h1.mem_iff.1 (List.mem_map_of_mem Prod.fst hp)),
    List.mem_range.1 (h2.mem_iff.1 (List.mem_map_of_mem Prod.snd hp))⟩

/-- With the pairs of one byte (source indices and destination indices each a
permutation of 0..7), the output byte of an encryption started from a zero
output byte has bit `p.2` equal to bit `p.1` of the input, for every pair. -/
theorem applyPairs_encrypt_bit (x : Nat) (hx : x < 256) (ps : List (Nat × Nat))
    (h1 : (ps.map Prod.fst).Perm (List.range 8)) (h2 : (ps.map Prod.snd).Perm (List.range 8))
    (p : Nat × Nat) (hp : p ∈ ps) :
    (applyPairs false x 0 ps).testBit p.2 = x.testBit p.1 := by
  have hlt := pairs_lt_of_perm ps h1 h2
  have hnd : (ps.map Prod.snd).Nodup := h2.nodup_iff.2 (List.nodup_range 8)
  rw [Bool.eq_iff_iff, applyPairs_encrypt_testBit x hx p.2 ps 0 (by decide) hlt]
  constructor
  · rintro (h | ⟨q, hq, e, hb⟩)
    · simp at h
    · have := List.inj_on_of_nodup_map hnd hq hp e
      rw [← this]; exact hb
  · intro hb
    exact Or.inr ⟨p, hp, rfl, hb⟩

theorem applyPairs_decrypt_bit (x : Nat) (hx : x < 256) (ps : List (Nat × Nat))
    (h1 : (ps.map Prod.fst).Perm (List.range 8)) (h2 : (ps.map Prod.snd).Perm (List.range 8))
    (p : Nat × Nat) (hp : p ∈ ps) :
    (applyPairs true x 0 ps).testBit p.1 = x.testBit p.2 := by
  have hlt := pairs_lt_of_perm ps h1 h2
  have hnd : (ps.map Prod.fst).Nodup := h1.nodup_iff.2 (List.nodup_range 8)
  rw [Bool.eq_iff_iff, applyPairs_decrypt_testBit x hx p.1 ps 0 (by decide) hlt]
  constructor
  · rintro (h | ⟨q, hq, e, hb⟩)
    · simp at h
    · have := List.inj_on_of_nodup_map hnd hq hp e
      rw [← this]; exact hb
  · intro hb
    exact Or.inr ⟨p, hp, rfl, hb⟩

theorem applyPairs_round_trip (x : Nat) (hx : x < 256) (ps : List (Nat × Nat))
    (h1 : (ps.map Prod.fst).Perm (List.range 8)) (h2 : (ps.map Prod.snd).Perm (List.range 8)) :
    applyPairs true (applyPairs false x 0 ps) 0 ps = x := by
  have hy : applyPairs false x 0 ps < 256 := applyPairs_lt false x 0 (by decide) ps
  apply Nat.eq_of_testBit_eq
  intro i
  by_cases hi : i < 8
  · obtain ⟨p, hp, e⟩ := List.mem_map.1 (h1.mem_iff.2 (List.mem_range.2 hi))
    rw [← e, applyPairs_decrypt_bit _ hy ps h1 h2 p hp, applyPairs_encrypt_bit x hx ps h1 h2 p hp]
  · rw [testBit_false_of_lt_256 x i hx (by omega),
      testBit_false_of_lt_256 _ i (applyPairs_lt true _ 0 (by decide) ps) (by omega)]

theorem applyPairs_round_trip_rev (x : Nat) (hx : x < 256) (ps : List (Nat × Nat))
    (h1 : (ps.map Prod.fst).Perm (List.range 8)) (h2 : (ps.map Prod.snd).Perm (List.range 8)) :
    applyPairs false (applyPairs true x 0 ps) 0 ps = x := by
  have hy : applyPairs true x 0 ps < 256 := applyPairs_lt true x 0 (by decide) ps
  apply Nat.eq_of_testBit_eq
  intro i
  by_cases hi : i < 8
  · obtain ⟨p, hp, e⟩ := List.mem_map.1 (h2.mem_iff.2 (List.mem_range.2 hi))
    rw [← e, applyPairs_encrypt_bit _ hy ps h1 h2 p hp, applyPairs_decrypt_bit x hx ps h1 h2 p hp]
  · rw [testBit_false_of_lt_256 x i hx (by omega),
      testBit_false_of_lt_256 _ i (applyPairs_lt false _ 0 (by decide) ps) (by omega)]

/-! ## The main loop -/

theorem mainLoop_cons (rand : Nat → Nat) (fuel : Nat) (d : Bool) (x : Nat) (xs : List Nat)
    (o : Nat) (st : GenState) (run : Run)
    (h : mainLoop rand fuel d (x :: xs) o st = some run) :
    ∃ ps st1 run',
      innerLoop rand fuel d 8 x o st = some (x, applyPairs d x o ps, ps, st1) ∧
      mainLoop rand fuel d xs 0 st1 = some run' ∧
      run = ⟨applyPairs d x o ps :: run'.out, ps :: run'.pairs, run'.st⟩ := by
  simp only [mainLoop] at h
  cases h1 : innerLoop rand fuel d 8 x o st with
  | none => rw [h1] at h; simp at h
  | some v =>
    obtain ⟨i', o', ps, st1⟩ := v
    rw [h1] at h
    simp only at h
    cases h2 : mainLoop rand fuel d xs 0 st1 with
    | none => rw [h2] at h; simp at h
    | some run' =>
      rw [h2] at h
      simp only [Option.some.injEq] at h
      obtain ⟨e1, e2, _⟩ := innerLoop_data_indep rand fuel d 8 x o st i' o' ps st1 h1
      subst e1; subst e2
      exact ⟨ps, st1, run', rfl, h2, h.symm⟩

theorem mainLoop_cons_of (rand : Nat → Nat) (fuel : Nat) (d : Bool) (x : Nat) (xs : List Nat)
    (o : Nat) (st : GenState) (i' o' : Nat) (ps : List (Nat × Nat)) (st1 : GenState) (run' : Run)
    (h1 : innerLoop rand fuel d 8 x o st = some (i', o', ps, st1))
    (h2 : mainLoop rand fuel d xs 0 st1 = some run') :
    mainLoop rand fuel d (x :: xs) o st = some ⟨o' :: run'.out, ps :: run'.pairs, run'.st⟩ := by
  simp only [mainLoop, h1, h2]

/-- Round trip of the main loop from any byte boundary. -/
theorem mainLoop_round_trip (rand : Nat → Nat) (fuel : Nat) :
    ∀ (B : List Nat) (st : GenState) (run : Run), (∀ x ∈ B, x < 256) →
      resetRecord st.sourceGen = 0 → resetRecord st.destGen = 0 →
      mainLoop rand fuel false B 0 st = some run →
      mainLoop rand fuel true run.out 0 st = some ⟨B, run.pairs, run.st⟩ := by
  intro B
  induction B with
  | nil =>
    intro st run _ _ _ h
    simp only [mainLoop, Option.some.injEq] at h
    subst h
    rfl
  | cons x xs ih =>
    intro st run hB hs hd h
    obtain ⟨ps, st1, run', h1, h2, e⟩ := mainLoop_cons rand fuel false x xs 0 st run h
    subst e
    obtain ⟨p1, p2, m1, m2, _⟩ := innerLoop_boundary rand fuel false x 0 st _ _ ps st1 hs hd h1
    have hx : x < 256 := hB x (List.mem_cons_self x xs)
    have hdec := (innerLoop_data_indep rand fuel false 8 x 0 st _ _ ps st1 h1).2.2 true
      (applyPairs false x 0 ps) 0
    rw [applyPairs_round_trip x hx ps p1 p2] at hdec
    have hrest := ih st1 run' (fun y hy => hB y (List.mem_cons_of_mem x hy))
      (by rw [m1]; rfl) (by rw [m2]; rfl) h2
    exact mainLoop_cons_of rand fuel true _ run'.out 0 st _ _ ps st1 _ hdec hrest

/-- C1. Stream round trip: for every byte sequence `B`, every draw sequence and
bound on which the encrypting run returns, the decrypting run on its output,
from fresh generators and the same draw sequence, returns exactly `B` (having
drawn the same pairs and reached the same generator state). -/
theorem stream_round_trip (rand : Nat → Nat) (fuel : Nat) (B : List Nat) (run : Run)
    (hB : ∀ x ∈ B, x < 256) (h : bitshift rand fuel false B = some run) :
    bitshift rand fuel true run.out = some ⟨B, run.pairs, run.st⟩ :=
  mainLoop_round_trip rand fuel B freshState run hB rfl rfl h

/-- Witness for C1: key "helloworld", input [0x41], with the sample hash and
the sample generator standing for the library's. -/
theorem stream_round_trip_witness :
    bitshiftMain sampleHash sampleSrand "helloworld" 40 false [0x41]
      = some ⟨[144], [[(4, 6), (0, 4), (7, 0), (2, 2), (1, 5), (6, 7), (5, 1), (3, 3)]],
          ⟨23, 255, 255⟩⟩ ∧
    bitshiftMain sampleHash sampleSrand "helloworld" 40 true [144]
      = some ⟨[0x41], [[(4, 6), (0, 4), (7, 0), (2, 2), (1, 5), (6, 7), (5, 1), (3, 3)]],
          ⟨23, 255, 255⟩⟩ :=
  ⟨by decide,
    stream_round_trip (sampleSrand (seedOf sampleHash "helloworld")) 40 [0x41]
      ⟨[144], [[(4, 6), (0, 4), (7, 0), (2, 2), (1, 5), (6, 7), (5, 1), (3, 3)]], ⟨23, 255, 255⟩⟩
      (by decide) (by decide)⟩

/-- C2. Per-byte round trip: for every byte `x`, every generator state at a
byte boundary (each index record all-zero or all-ones) and every draw sequence
and bound on which the 8 encrypting iterations return, the 8 decrypting
iterations on the encrypted byte, from the same state and a zero output byte,
return `x` (with the same pairs and the same final state). -/
theorem byte_round_trip (rand : Nat → Nat) (fuel x : Nat) (st : GenState)
    (x' y : Nat) (ps : List (Nat × Nat)) (st' : GenState) (hx : x < 256)
    (hs : st.sourceGen = 0 ∨ st.sourceGen = 255) (hd : st.destGen = 0 ∨ st.destGen = 255)
    (h : innerLoop rand fuel false 8 x 0 st = some (x', y, ps, st')) :
    innerLoop rand fuel true 8 y 0 st = some (y, x, ps, st') := by
  obtain ⟨p1, p2, _⟩ := innerLoop_boundary rand fuel false x 0 st x' y ps st'
    ((resetRecord_eq_zero_iff _).2 hs) ((resetRecord_eq_zero_iff _).2 hd) h
  obtain ⟨_, e2, hall⟩ := innerLoop_data_indep rand fuel false 8 x 0 st x' y ps st' h
  have hdec := hall true y 0
  rw [e2] at hdec ⊢
  rw [applyPairs_round_trip x hx ps p1 p2] at hdec
  exact hdec

/-- Witness for C2: byte 0xC5 at the boundary state (position 23, source
record all-ones, destination record all-zero) of the sample draw sequence. -/
theorem byte_round_trip_witness :
    innerLoop sampleRand 40 false 8 0xC5 0 ⟨23, 255, 0⟩
      = some (0xC5, 0x3A,
          [(7, 1), (4, 6), (2, 5), (1, 2), (0, 3), (3, 0), (6, 4), (5, 7)], ⟨79, 255, 255⟩) ∧
    innerLoop sampleRand 40 true 8 0x3A 0 ⟨23, 255, 0⟩
      = some (0x3A, 0xC5,
          [(7, 1), (4, 6), (2, 5), (1, 2), (0, 3), (3, 0), (6, 4), (5, 7)], ⟨79, 255, 255⟩) :=
  ⟨by decide,
    byte_round_trip sampleRand 40 0xC5 ⟨23, 255, 0⟩ 0xC5 0x3A
      [(7, 1), (4, 6), (2, 5), (1, 2), (0, 3), (3, 0), (6, 4), (5, 7)] ⟨79, 255, 255⟩
      (by decide) (Or.inr rfl) (Or.inl rfl) (by decide)⟩

/-! ## More fuel never changes a result -/

theorem innerLoop_mono (rand : Nat → Nat) (fuel fuel' : Nat) (d : Bool) (hle : fuel ≤ fuel') :
    ∀ n x o st v, innerLoop rand fuel d n x o st = some v →
      innerLoop rand fuel' d n x o st = some v := by
  intro n
  induction n with
  | zero =>
    intro x o st v h
    simpa [innerLoop] using h
  | succ n ih =>
    intro x o st v h
    obtain ⟨i', o', ps, st'⟩ := v
    obtain ⟨a, p1, s1, b, p2, d1, ps', h1, h2, h3, e⟩ :=
      innerLoop_succ rand fuel d n x o st i' o' ps st' h
    subst e
    exact innerLoop_succ_of rand fuel' d n x o st a p1 s1 b p2 d1 i' o' ps' st'
      (nextIndex_mono rand fuel fuel' _ _ _ hle h1)
      (nextIndex_mono rand fuel fuel' _ _ _ hle h2) (ih x _ _ _ h3)

theorem mainLoop_mono (rand : Nat → Nat) (fuel fuel' : Nat) (d : Bool) (hle : fuel ≤ fuel') :
    ∀ B o st run, mainLoop rand fuel d B o st = some run →
      mainLoop rand fuel' d B o st = some run := by
  intro B
  induction B with
  | nil =>
    intro o st run h
    simpa [mainLoop] using h
  | cons x xs ih =>
    intro o st run h
    obtain ⟨ps, st1, run', h1, h2, e⟩ := mainLoop_cons rand fuel d x xs o st run h
    subst e
    exact mainLoop_cons_of rand fuel' d x xs o st _ _ ps st1 run'
      (innerLoop_mono rand fuel fuel' d hle 8 x o st _ h1) (ih 0 st1 run' h2)

/-! ## Termination on fair draw sequences -/

theorem innerLoop_total (rand : Nat → Nat) (hfair : Fair rand) (d : Bool) :
    ∀ n x o st, st.sourceGen < 256 → st.destGen < 256 →
      ∃ fuel i' o' ps st', innerLoop rand fuel d n x o st = some (i', o', ps, st') ∧
        st'.sourceGen < 256 ∧ st'.destGen < 256 := by
  intro n
  induction n with
  | zero =>
    intro x o st hs hd
    exact ⟨0, x, o, [], st, rfl, hs, hd⟩
  | succ n ih =>
    intro x o st hs hd
    obtain ⟨f1, a, p1, s1, h1, hs1⟩ := nextIndex_total rand hfair st.pos st.sourceGen hs
    obtain ⟨f2, b, p2, d1, h2, hd1⟩ := nextIndex_total rand hfair p1 st.destGen hd
    obtain ⟨f3, i', o', ps', st', h3, hs', hd'⟩ :=
      ih x (applyPairs d x o [(a, b)]) ⟨p2, s1, d1⟩ hs1 hd1
    refine ⟨max f1 (max f2 f3), i', o', (a, b) :: ps', st', ?_, hs', hd'⟩
    exact innerLoop_succ_of rand _ d n x o st a p1 s1 b p2 d1 i' o' ps' st'
      (nextIndex_mono rand f1 _ _ _ _ (le_max_left _ _) h1)
      (nextIndex_mono rand f2 _ _ _ _ (le_trans (le_max_left _ _) (le_max_right _ _)) h2)
      (innerLoop_mono rand f3 _ d (le_trans (le_max_right _ _) (le_max_right _ _)) n x _ _ _ h3)

theorem mainLoop_total (rand : Nat → Nat) (hfair : Fair rand) (d : Bool) :
    ∀ B o st, st.sourceGen < 256 → st.destGen < 256 →
      ∃ fuel run, mainLoop rand fuel d B o st = some run := by
  intro B
  induction B with
  | nil =>
    intro o st _ _
    exact ⟨0, _, rfl⟩
  | cons x xs ih =>
    intro o st hs hd
    obtain ⟨f1, i', o', ps, st1, h1, hs1, hd1⟩ := innerLoop_total rand hfair d 8 x o st hs hd
    obtain ⟨f2, run', h2⟩ := ih 0 st1 hs1 hd1
    exact ⟨max f1 f2, _, mainLoop_cons_of rand _ d x xs o st i' o' ps st1 run'
      (innerLoop_mono rand f1 _ d (le_max_left _ _) 8 x o st _ h1)
      (mainLoop_mono rand f2 _ d (le_max_right _ _) xs 0 st1 run' h2)⟩

/-! ## The shape of a run -/

/-- The draws of a run do not depend on the mode or on the input bytes: a run
over any input of the same length, in any mode, draws the same pairs, ends in
the same generator state and outputs, byte by byte, the effect of `process` on
a zero output byte. -/
theorem mainLoop_data_indep (rand : Nat → Nat) (fuel : Nat) (d : Bool) :
    ∀ (B : List Nat) (st : GenState) (run : Run), mainLoop rand fuel d B 0 st = some run →
      ∀ (d2 : Bool) (B2 : List Nat), B2.length = B.length →
        mainLoop rand fuel d2 B2 0 st
          = some ⟨List.zipWith (fun x ps => applyPairs d2 x 0 ps) B2 run.pairs,
              run.pairs, run.st⟩ := by
  intro B
  induction B with
  | nil =>
    intro st run h d2 B2 hlen
    simp only [mainLoop, Option.some.injEq] at h
    subst h
    have : B2 = [] := List.length_eq_zero.1 hlen
    subst this
    rfl
  | cons x xs ih =>
    intro st run h d2 B2 hlen
    obtain ⟨ps, st1, run', h1, h2, e⟩ := mainLoop_cons rand fuel d x xs 0 st run h
    subst e
    cases B2 with
    | nil => simp at hlen
    | cons y ys =>
      have hys : ys.length = xs.length := by simpa using hlen
      have hin := (innerLoop_data_indep rand fuel d 8 x 0 st _ _ ps st1 h1).2.2 d2 y 0
      have hrest := ih st1 run' h2 d2 ys hys
      rw [mainLoop_cons_of rand fuel d2 y ys 0 st _ _ ps st1 _ hin hrest]
      rfl

theorem mainLoop_pairs_length (rand : Nat → Nat) (fuel : Nat) (d : Bool) :
    ∀ (B : List Nat) (o : Nat) (st : GenState) (run : Run),
      mainLoop rand fuel d B o st = some run →
      run.pairs.length = B.length ∧ run.out.length = B.length := by
  intro B
  induction B with
  | nil =>
    intro o st run h
    simp only [mainLoop, Option.some.injEq] at h
    subst h
    exact ⟨rfl, rfl⟩
  | cons x xs ih =>
    intro o st run h
    obtain ⟨ps, st1, run', _, h2, e⟩ := mainLoop_cons rand fuel d x xs o st run h
    subst e
    obtain ⟨l1, l2⟩ := ih 0 st1 run' h2
    simp [l1, l2]

theorem getD_zipWith_applyPairs (d : Bool) :
    ∀ (B : List Nat) (P : List (List (Nat × Nat))) (j : Nat), j < B.length → j < P.length →
      (List.zipWith (fun x ps => applyPairs d x 0 ps) B P).getD j 0
        = applyPairs d (B.getD j 0) 0 (P.getD j []) := by
  intro B
  induction B with
  | nil => intro P j hj _; simp at hj
  | cons x xs ih =>
    intro P j hj hp
    cases P with
    | nil => simp at hp
    | cons ps P' =>
      cases j with
      | zero => simp
      | succ j =>
        simp only [List.zipWith_cons_cons, List.getD_cons_succ]
        exact ih P' j (by simpa using hj) (by simpa using hp)

/-- From a byte boundary, the pairs of every byte of a run consist of a
permutation of 0..7 of source indices and one of destination indices. -/
theorem mainLoop_pairs_perm (rand : Nat → Nat) (fuel : Nat) (d : Bool) :
    ∀ (B : List Nat) (st : GenState) (run : Run),
      resetRecord st.sourceGen = 0 → resetRecord st.destGen = 0 →
      mainLoop rand fuel d B 0 st = some run →
      (∀ ps ∈ run.pairs, (ps.map Prod.fst).Perm (List.range 8) ∧
        (ps.map Prod.snd).Perm (List.range 8) ∧ ps.length = 8) ∧
      resetRecord run.st.sourceGen = 0 ∧ resetRecord run.st.destGen = 0 := by
  intro B
  induction B with
  | nil =>
    intro st run hs hd h
    simp only [mainLoop, Option.some.injEq] at h
    subst h
    exact ⟨by intro ps hps; simp at hps, hs, hd⟩
  | cons x xs ih =>
    intro st run hs hd h
    obtain ⟨ps, st1, run', h1, h2, e⟩ := mainLoop_cons rand fuel d x xs 0 st run h
    subst e
    obtain ⟨p1, p2, m1, m2, l⟩ := innerLoop_boundary rand fuel d x 0 st _ _ ps st1 hs hd h1
    obtain ⟨hall, e1, e2⟩ := ih st1 run' (by rw [m1]; rfl) (by rw [m2]; rfl) h2
    refine ⟨?_, e1, e2⟩
    intro qs hqs
    simp only [List.mem_cons] at hqs
    rcases hqs with rfl | hqs
    · exact ⟨p1, p2, l⟩
    · exact hall qs hqs

/-! ## Claims about whole runs -/

theorem fair_counterRand : Fair counterRand := by
  intro pos i hi
  refine ⟨8 * pos + i, by omega, ?_⟩
  simp only [counterRand]
  omega

theorem getD_mem_of_lt {α : Type} (l : List α) (j : Nat) (dflt : α) (hj : j < l.length) :
    l.getD j dflt ∈ l := by
  rw [List.getD_eq_getElem l dflt hj]
  exact List.getElem_mem hj

/-- C4. Length preservation: the empty input produces the empty output for
every draw sequence, bound and mode; whenever a run returns, its output has
exactly one byte per input byte, in input order (byte `j` of the output is the
transform of byte `j` of the input by the `j`-th group of pairs); and on every
draw sequence in which each residue modulo 8 keeps occurring, the run does
return, with an output of the length of the input. -/
theorem length_preservation (rand : Nat → Nat) (d : Bool) (B : List Nat) :
    (∀ fuel, bitshift rand fuel d [] = some ⟨[], [], freshState⟩) ∧
    (∀ fuel run, bitshift rand fuel d B = some run →
      run.out.length = B.length ∧ run.pairs.length = B.length ∧
      run.out = List.zipWith (fun x ps => applyPairs d x 0 ps) B run.pairs) ∧
    (Fair rand → ∃ fuel run, bitshift rand fuel d B = some run ∧ run.out.length = B.length) := by
  refine ⟨fun fuel => rfl, ?_, ?_⟩
  · intro fuel run h
    obtain ⟨l1, l2⟩ := mainLoop_pairs_length rand fuel d B 0 freshState run h
    refine ⟨l2, l1, ?_⟩
    have h2 := mainLoop_data_indep rand fuel d B freshState run h d B rfl
    have h' : mainLoop rand fuel d B 0 freshState = some run := h
    rw [h'] at h2
    simp only [Option.some.injEq] at h2
    exact congrArg Run.out h2
  · intro hfair
    obtain ⟨fuel, run, h⟩ :=
      mainLoop_total rand hfair d B 0 freshState (by decide) (by decide)
    exact ⟨fuel, run, h, (mainLoop_pairs_length rand fuel d B 0 freshState run h).2⟩

/-- Witness for C4: a two-byte input on the draw sequence 0, 1, 2, ... -/
theorem length_preservation_witness :
    Fair counterRand ∧
    ∃ fuel run, bitshift counterRand fuel true [0x41, 0x42] = some run ∧
      run.out.length = [0x41, 0x42].length :=
  ⟨fair_counterRand, (length_preservation counterRand true [0x41, 0x42]).2.2 fair_counterRand⟩

/-- C5. Bit mapping of one byte: in a run from fresh generators with the output
byte initially zero, for every byte position `j` the output byte is the effect
of the 8 calls of `process` for the pairs drawn for that byte on a zero output
byte (so the output byte is zero before the 8 copies of every byte, also after
the first); in Encrypt mode bit `b` of the output byte equals bit `a` of the
input byte for each drawn pair `(a, b)`, and in Decrypt mode bit `a` of the
output byte equals bit `b` of the input byte. -/
theorem bit_mapping (rand : Nat → Nat) (fuel : Nat) (d : Bool) (B : List Nat) (run : Run)
    (hB : ∀ x ∈ B, x < 256) (h : bitshift rand fuel d B = some run) :
    run.out.length = B.length ∧ run.pairs.length = B.length ∧
    ∀ j, j < B.length →
      (run.pairs.getD j []).length = 8 ∧
      run.out.getD j 0 = applyPairs d (B.getD j 0) 0 (run.pairs.getD j []) ∧
      ∀ p ∈ run.pairs.getD j [],
        (d = false → (run.out.getD j 0).testBit p.2 = (B.getD j 0).testBit p.1) ∧
        (d = true → (run.out.getD j 0).testBit p.1 = (B.getD j 0).testBit p.2) := by
  obtain ⟨l1, l2⟩ := mainLoop_pairs_length rand fuel d B 0 freshState run h
  have hout : run.out = List.zipWith (fun x ps => applyPairs d x 0 ps) B run.pairs := by
    have h2 := mainLoop_data_indep rand fuel d B freshState run h d B rfl
    have h' : mainLoop rand fuel d B 0 freshState = some run := h
    rw [h'] at h2
    simp only [Option.some.injEq] at h2
    exact congrArg Run.out h2
  have hperm := (mainLoop_pairs_perm rand fuel d B freshState run rfl rfl h).1
  refine ⟨l2, l1, ?_⟩
  intro j hj
  have hjp : j < run.pairs.length := by omega
  obtain ⟨p1, p2, l8⟩ := hperm _ (getD_mem_of_lt run.pairs j [] hjp)
  have hx : B.getD j 0 < 256 := hB _ (getD_mem_of_lt B j 0 hj)
  have hoj : run.out.getD j 0 = applyPairs d (B.getD j 0) 0 (run.pairs.getD j []) := by
    rw [hout]
    exact getD_zipWith_applyPairs d B run.pairs j hj hjp
  refine ⟨l8, hoj, ?_⟩
  intro p hp
  constructor
  · intro hd
    subst hd
    rw [hoj]
    exact applyPairs_encrypt_bit _ hx _ p1 p2 p hp
  · intro hd
    subst hd
    rw [hoj]
    exact applyPairs_decrypt_bit _ hx _ p1 p2 p hp

/-- Witness for C5: the second byte of an encryption on the sample draw
sequence is the transform of the second input byte from a zero output byte. -/
theorem bit_mapping_witness :
    bitshift sampleRand 40 false [0x41, 0x42]
      = some ⟨[3, 48],
          [[(0, 0), (2, 3), (5, 2), (6, 1), (4, 7), (3, 4), (7, 6), (1, 5)],
           [(3, 2), (0, 0), (7, 7), (2, 3), (5, 6), (1, 5), (6, 4), (4, 1)]],
          ⟨65, 255, 255⟩⟩ ∧
    (48 : Nat) = applyPairs false 0x42 0
      [(3, 2), (0, 0), (7, 7), (2, 3), (5, 6), (1, 5), (6, 4), (4, 1)] :=
  ⟨by decide,
    ((bit_mapping sampleRand 40 false [0x41, 0x42]
      ⟨[3, 48],
        [[(0, 0), (2, 3), (5, 2), (6, 1), (4, 7), (3, 4), (7, 6), (1, 5)],
         [(3, 2), (0, 0), (7, 7), (2, 3), (5, 6), (1, 5), (6, 4), (4, 1)]],
        ⟨65, 255, 255⟩⟩ (by decide) (by decide)).2.2 1 (by decide)).2.1⟩

/-- C6, the claim as stated fails: the inputs [0x41, 0x42] and [0x00, 0x42]
differ only at byte 0, yet with the same draw sequence and mode both runs apply
the same pairs to byte 1. -/
theorem garbled_byte_counterexample :
    (bitshift sampleRand 40 false [0x41, 0x42]).map (fun r => r.pairs.getD 1 [])
      = some [(3, 2), (0, 0), (7, 7), (2, 3), (5, 6), (1, 5), (6, 4), (4, 1)] ∧
    (bitshift sampleRand 40 false [0x00, 0x42]).map (fun r => r.pairs.getD 1 [])
      = some [(3, 2), (0, 0), (7, 7), (2, 3), (5, 6), (1, 5), (6, 4), (4, 1)] := by
  constructor <;> decide

/-- C6, amended. Changing the value of one input byte does not change the bit
mapping of any byte: for two runs with the same draw sequence and mode whose
inputs have the same length and differ only at byte position `j`, the second
run returns whenever the first does, the pairs applied to every byte and the
final generator state are identical, and the outputs agree at every position
other than `j`. -/
theorem garbled_byte_keeps_mapping (rand : Nat → Nat) (fuel : Nat) (d : Bool)
    (B B' : List Nat) (j : Nat) (run : Run) (hlen : B'.length = B.length)
    (hdiff : ∀ i, i ≠ j → B'.getD i 0 = B.getD i 0)
    (h : bitshift rand fuel d B = some run) :
    ∃ run', bitshift rand fuel d B' = some run' ∧ run'.pairs = run.pairs ∧
      run'.st = run.st ∧ ∀ i, i ≠ j → run'.out.getD i 0 = run.out.getD i 0 := by
  have h1 := mainLoop_data_indep rand fuel d B freshState run h d B' hlen
  have h2 := mainLoop_data_indep rand fuel d B freshState run h d B rfl
  have h' : mainLoop rand fuel d B 0 freshState = some run := h
  rw [h'] at h2
  simp only [Option.some.injEq] at h2
  have hout : run.out = List.zipWith (fun x ps => applyPairs d x 0 ps) B run.pairs :=
    congrArg Run.out h2
  obtain ⟨l1, _⟩ := mainLoop_pairs_length rand fuel d B 0 freshState run h
  refine ⟨_, h1, rfl, rfl, ?_⟩
  intro i hi
  simp only
  rw [hout]
  by_cases hlt : i < B.length
  · rw [getD_zipWith_applyPairs d B' run.pairs i (by omega) (by omega),
      getD_zipWith_applyPairs d B run.pairs i hlt (by omega), hdiff i hi]
  · rw [List.getD_eq_default _ _ (by simp; omega), List.getD_eq_default _ _ (by simp; omega)]

/-- Witness for C6 amended: the inputs [0x41, 0x42] and [0x00, 0x42]. -/
theorem garbled_byte_keeps_mapping_witness :
    ∃ run', bitshift sampleRand 40 false [0x00, 0x42] = some run' ∧
      run'.pairs = [[(0, 0), (2, 3), (5, 2), (6, 1), (4, 7), (3, 4), (7, 6), (1, 5)],
        [(3, 2), (0, 0), (7, 7), (2, 3), (5, 6), (1, 5), (6, 4), (4, 1)]] ∧
      run'.st = ⟨65, 255, 255⟩ ∧
      ∀ i, i ≠ 0 → run'.out.getD i 0 = ([3, 48] : List Nat).getD i 0 :=
  garbled_byte_keeps_mapping sampleRand 40 false [0x41, 0x42] [0x00, 0x42] 0
    ⟨[3, 48],
      [[(0, 0), (2, 3), (5, 2), (6, 1), (4, 7), (3, 4), (7, 6), (1, 5)],
       [(3, 2), (0, 0), (7, 7), (2, 3), (5, 6), (1, 5), (6, 4), (4, 1)]],
      ⟨65, 255, 255⟩⟩ rfl
    (fun i hi => by
      cases i with
      | zero => exact absurd rfl hi
      | succ k => rfl)
    (by decide)

/-- The result of a run does not depend on the bound on the draws of one call:
two returning runs on the same draw sequence, mode and input agree. -/
theorem bitshift_fuel_independent (rand : Nat → Nat) (d : Bool) (B : List Nat)
    (fuel1 fuel2 : Nat) (run1 run2 : Run)
    (h1 : bitshift rand fuel1 d B = some run1) (h2 : bitshift rand fuel2 d B = some run2) :
    run1 = run2 := by
  have m1 := mainLoop_mono rand fuel1 (max fuel1 fuel2) d
    (le_max_left _ _) B 0 freshState run1 h1
  have m2 := mainLoop_mono rand fuel2 (max fuel1 fuel2) d
    (le_max_right _ _) B 0 freshState run2 h2
  rw [m1] at m2
  exact Option.some.inj m2

/-! ## The frame of one call -/

theorem sourceNext_some (rand : Nat → Nat) (fuel : Nat) (st : GenState) (r : Nat)
    (st' : GenState) (h : sourceNext rand fuel st = some (r, st')) :
    nextIndex rand fuel st.pos st.sourceGen = some (r, st'.pos, st'.sourceGen) ∧
    st'.destGen = st.destGen := by
  unfold sourceNext at h
  cases hn : nextIndex rand fuel st.pos st.sourceGen with
  | none => rw [hn] at h; simp at h
  | some v =>
    obtain ⟨r0, p0, m0⟩ := v
    rw [hn] at h
    simp only [Option.some.injEq, Prod.mk.injEq] at h
    obtain ⟨e1, e2⟩ := h
    subst e1; subst e2
    exact ⟨rfl, rfl⟩

theorem destNext_some (rand : Nat → Nat) (fuel : Nat) (st : GenState) (r : Nat)
    (st' : GenState) (h : destNext rand fuel st = some (r, st')) :
    nextIndex rand fuel st.pos st.destGen = some (r, st'.pos, st'.destGen) ∧
    st'.sourceGen = st.sourceGen := by
  unfold destNext at h
  cases hn : nextIndex rand fuel st.pos st.destGen with
  | none => rw [hn] at h; simp at h
  | some v =>
    obtain ⟨r0, p0, m0⟩ := v
    rw [hn] at h
    simp only [Option.some.injEq, Prod.mk.injEq] at h
    obtain ⟨e1, e2⟩ := h
    subst e1; subst e2
    exact ⟨rfl, rfl⟩

/-- One iteration of the inner loop is the source generator's call, then the
destination generator's call, then `process`. -/
theorem innerLoop_eq_steps (rand : Nat → Nat) (fuel : Nat) (d : Bool) (n inC outC : Nat)
    (st : GenState) :
    innerLoop rand fuel d (n + 1) inC outC st =
      (sourceNext rand fuel st).bind (fun s1 =>
        (destNext rand fuel s1.2).bind (fun s2 =>
          (innerLoop rand fuel d n inC (applyPairs d inC outC [(s1.1, s2.1)]) s2.2).map
            (fun v => (v.1, v.2.1, (s1.1, s2.1) :: v.2.2.1, v.2.2.2)))) := by
  simp only [innerLoop, sourceNext, destNext]
  cases h1 : nextIndex rand fuel st.pos st.sourceGen with
  | none => rfl
  | some v =>
    obtain ⟨a, p1, s1⟩ := v
    simp only [Option.bind]
    cases h2 : nextIndex rand fuel p1 st.destGen with
    | none => rfl
    | some w =>
      obtain ⟨b, p2, d1⟩ := w
      simp only
      have hfst : (if (!d) = true then process inC outC a b else process inC outC b a).1 = inC := by
        cases d <;> rfl
      have hsnd : (if (!d) = true then process inC outC a b else process inC outC b a).2
          = applyPairs d inC outC [(a, b)] := by
        cases d <;> rfl
      rw [hfst, hsnd]
      cases innerLoop rand fuel d n inC (applyPairs d inC outC [(a, b)]) ⟨p2, s1, d1⟩ with
      | none => rfl
      | some u => rfl

/-- C11, the claim as stated fails: the first call on the fresh source
generator leaves the pseudorandom source one draw further (position 1, not 0). -/
theorem nextIndex_frame_counterexample :
    sourceNext sampleRand 40 freshState = some (0, ⟨1, 1, 0⟩) ∧
    (⟨1, 1, 0⟩ : GenState).pos ≠ freshState.pos :=
  ⟨by decide, by decide⟩

/-- C11, amended. A call to `nextIndex` mutates the called generator's own
used-mask and advances the shared pseudorandom source by at least one draw (one
draw per candidate tried); the other generator's mask is the same after the
call as before it.  Stated for the call on the source generator and for the
call on the destination generator. -/
theorem nextIndex_frame (rand : Nat → Nat) (fuel : Nat) (st : GenState) :
    (∀ r st', sourceNext rand fuel st = some (r, st') →
      st'.destGen = st.destGen ∧ st.pos < st'.pos ∧ r = rand (st'.pos - 1) % 8 ∧
      st'.sourceGen = (resetRecord st.sourceGen ||| (1 <<< r)) % 256 ∧
      (st.sourceGen < 256 → st'.sourceGen ≠ st.sourceGen)) ∧
    (∀ r st', destNext rand fuel st = some (r, st') →
      st'.sourceGen = st.sourceGen ∧ st.pos < st'.pos ∧ r = rand (st'.pos - 1) % 8 ∧
      st'.destGen = (resetRecord st.destGen ||| (1 <<< r)) % 256 ∧
      (st.destGen < 256 → st'.destGen ≠ st.destGen)) := by
  have key : ∀ pos m r pos' m', nextIndex rand fuel pos m = some (r, pos', m') →
      pos < pos' ∧ r = rand (pos' - 1) % 8 ∧ m' = (resetRecord m ||| (1 <<< r)) % 256 ∧
      (m < 256 → m' ≠ m) := by
    intro pos m r pos' m' h
    obtain ⟨h1, h2⟩ := nextIndex_some rand fuel pos m r pos' m' h
    obtain ⟨hp, _, hr, hfree, _⟩ := rejectLoop_some rand _ fuel pos r pos' h1
    refine ⟨hp, hr, h2, ?_⟩
    intro hm e
    have hr8 : r < 8 := by rw [hr]; exact Nat.mod_lt _ (by decide)
    have hm' : m' = resetRecord m ||| (1 <<< r) := by
      rw [h2]
      exact Nat.mod_eq_of_lt (or_one_shiftLeft_lt _ r (resetRecord_lt m hm) hr8)
    have hset : m'.testBit r = true := by
      rw [hm', testBit_or_one_shiftLeft]; simp
    by_cases h255 : m = 255
    · have hz : resetRecord m = 0 := (resetRecord_eq_zero_iff m).2 (Or.inr h255)
      rw [hz, Nat.zero_or] at hm'
      have hlt : (1 : Nat) <<< r < 255 := by
        have : r ≤ 7 := by omega
        interval_cases r <;> decide
      omega
    · rw [resetRecord_of_ne m h255] at hfree
      rw [e, hfree] at hset
      exact Bool.false_ne_true hset
  constructor
  · intro r st' h
    obtain ⟨h1, h2⟩ := sourceNext_some rand fuel st r st' h
    obtain ⟨k1, k2, k3, k4⟩ := key _ _ _ _ _ h1
    exact ⟨h2, k1, k2, k3, k4⟩
  · intro r st' h
    obtain ⟨h1, h2⟩ := destNext_some rand fuel st r st' h
    obtain ⟨k1, k2, k3, k4⟩ := key _ _ _ _ _ h1
    exact ⟨h2, k1, k2, k3, k4⟩

/-- Witness for C11 amended: the call on the source generator in the state
(position 5, source record 0b10110111, destination record 0b00000110). -/
theorem nextIndex_frame_witness :
    sourceNext sampleRand 40 ⟨5, 0b10110111, 0b00000110⟩ = some (6, ⟨8, 247, 6⟩) ∧
    (⟨8, 247, 6⟩ : GenState).destGen = (⟨5, 0b10110111, 0b00000110⟩ : GenState).destGen ∧
    (⟨5, 0b10110111, 0b00000110⟩ : GenState).pos < (⟨8, 247, 6⟩ : GenState).pos :=
  ⟨by decide,
    ((nextIndex_frame sampleRand 40 ⟨5, 0b10110111, 0b00000110⟩).1 6 ⟨8, 247, 6⟩
      (by decide)).1,
    ((nextIndex_frame sampleRand 40 ⟨5, 0b10110111, 0b00000110⟩).1 6 ⟨8, 247, 6⟩
      (by decide)).2.1⟩

/-! ## Prefixes of a run -/

theorem mainLoop_append (rand : Nat → Nat) (fuel : Nat) (d : Bool) :
    ∀ (B1 B2 : List Nat) (st : GenState) (run : Run),
      mainLoop rand fuel d (B1 ++ B2) 0 st = some run →
      ∃ r1 r2, mainLoop rand fuel d B1 0 st = some r1 ∧
        mainLoop rand fuel d B2 0 r1.st = some r2 ∧
        run = ⟨r1.out ++ r2.out, r1.pairs ++ r2.pairs, r2.st⟩ := by
  intro B1
  induction B1 with
  | nil =>
    intro B2 st run h
    exact ⟨⟨[], [], st⟩, run, rfl, h, rfl⟩
  | cons x xs ih =>
    intro B2 st run h
    rw [List.cons_append] at h
    obtain ⟨ps, st1, run', h1, h2, e⟩ := mainLoop_cons rand fuel d x (xs ++ B2) 0 st run h
    obtain ⟨r1, r2, k1, k2, e2⟩ := ih B2 st1 run' h2
    refine ⟨_, r2, mainLoop_cons_of rand fuel d x xs 0 st _ _ ps st1 r1 h1 k1, k2, ?_⟩
    rw [e, e2]
    rfl

/-- The run over the first `k` bytes returns when the whole run does; the rest
of the run continues from its final state. -/
theorem mainLoop_split (rand : Nat → Nat) (fuel : Nat) (d : Bool) (B : List Nat)
    (st : GenState) (run : Run) (k : Nat) (hk : k ≤ B.length)
    (h : mainLoop rand fuel d B 0 st = some run) :
    ∃ rk, mainLoop rand fuel d (B.take k) 0 st = some rk ∧
      mainLoop rand fuel d (B.drop k) 0 rk.st
        = some ⟨run.out.drop k, run.pairs.drop k, run.st⟩ ∧
      rk.pairs = run.pairs.take k ∧ rk.out = run.out.take k := by
  have h' := h
  rw [← List.take_append_drop k B] at h'
  obtain ⟨r1, r2, k1, k2, e⟩ := mainLoop_append rand fuel d _ _ st run h'
  obtain ⟨l1, l2⟩ := mainLoop_pairs_length rand fuel d _ 0 st r1 k1
  have hlen : (B.take k).length = k := by rw [List.length_take]; omega
  rw [hlen] at l1 l2
  refine ⟨r1, k1, ?_, ?_, ?_⟩
  · rw [k2, e]
    simp only [Option.some.injEq]
    have e1 : (r1.out ++ r2.out).drop k = r2.out := by rw [← l2, List.drop_left]
    have e2 : (r1.pairs ++ r2.pairs).drop k = r2.pairs := by rw [← l1, List.drop_left]
    rw [e1, e2]
  · rw [e]
    simp only
    rw [← l1, List.take_left]
  · rw [e]
    simp only
    rw [← l2, List.take_left]

theorem mainLoop_final_masks (rand : Nat → Nat) (fuel : Nat) (d : Bool) :
    ∀ (B : List Nat) (st : GenState) (run : Run), B ≠ [] →
      resetRecord st.sourceGen = 0 → resetRecord st.destGen = 0 →
      mainLoop rand fuel d B 0 st = some run →
      run.st.sourceGen = 255 ∧ run.st.destGen = 255 := by
  intro B
  induction B with
  | nil => intro st run hne; exact absurd rfl hne
  | cons x xs ih =>
    intro st run _ hs hd h
    obtain ⟨ps, st1, run', h1, h2, e⟩ := mainLoop_cons rand fuel d x xs 0 st run h
    obtain ⟨_, _, m1, m2, _⟩ := innerLoop_boundary rand fuel d x 0 st _ _ ps st1 hs hd h1
    subst e
    cases xs with
    | nil =>
      simp only [mainLoop, Option.some.injEq] at h2
      subst h2
      exact ⟨m1, m2⟩
    | cons y ys =>
      exact ih st1 run' (List.cons_ne_nil y ys) (by rw [m1]; rfl) (by rw [m2]; rfl) h2

/-- C12. Mode- and data-independence of the draw sequence: for every draw
sequence and every two runs over inputs of the same length, whatever the two
modes and the input bytes, the second run returns whenever the first does, and
after each byte (for each number `k` of bytes processed) the pairs drawn so
far, the generator masks and the number of draws consumed are identical in the
two runs. -/
theorem draws_independent_of_mode_and_data (rand : Nat → Nat) (fuel : Nat) (d d2 : Bool)
    (B B2 : List Nat) (run : Run) (hlen : B2.length = B.length)
    (h : bitshift rand fuel d B = some run) :
    (∃ run2, bitshift rand fuel d2 B2 = some run2 ∧ run2.pairs = run.pairs ∧
      run2.st = run.st) ∧
    ∀ k, k ≤ B.length →
      ∃ r1 r2, bitshift rand fuel d (B.take k) = some r1 ∧
        bitshift rand fuel d2 (B2.take k) = some r2 ∧
        r1.pairs = run.pairs.take k ∧ r2.pairs = r1.pairs ∧
        r2.st.pos = r1.st.pos ∧ r2.st.sourceGen = r1.st.sourceGen ∧
        r2.st.destGen = r1.st.destGen := by
  constructor
  · exact ⟨_, mainLoop_data_indep rand fuel d B freshState run h d2 B2 hlen, rfl, rfl⟩
  · intro k hk
    obtain ⟨r1, k1, _, k3, _⟩ := mainLoop_split rand fuel d B freshState run k hk h
    have hl : (B2.take k).length = (B.take k).length := by
      rw [List.length_take, List.length_take, hlen]
    exact ⟨r1, _, k1, mainLoop_data_indep rand fuel d _ freshState r1 k1 d2 _ hl, k3,
      rfl, rfl, rfl, rfl⟩

/-- Witness for C12: encrypting [0x41, 0x42] and decrypting [0x00, 0xff] on
the sample draw sequence; state after the first byte (`k = 1`). -/
theorem draws_independent_of_mode_and_data_witness :
    bitshift sampleRand 40 false [0x41, 0x42]
      = some ⟨[3, 48],
          [[(0, 0), (2, 3), (5, 2), (6, 1), (4, 7), (3, 4), (7, 6), (1, 5)],
           [(3, 2), (0, 0), (7, 7), (2, 3), (5, 6), (1, 5), (6, 4), (4, 1)]],
          ⟨65, 255, 255⟩⟩ ∧
    ∃ r1 r2, bitshift sampleRand 40 false (([0x41, 0x42] : List Nat).take 1) = some r1 ∧
      bitshift sampleRand 40 true (([0x00, 0xff] : List Nat).take 1) = some r2 ∧
      r1.pairs = ([[(0, 0), (2, 3), (5, 2), (6, 1), (4, 7), (3, 4), (7, 6), (1, 5)],
        [(3, 2), (0, 0), (7, 7), (2, 3), (5, 6), (1, 5), (6, 4), (4, 1)]]
          : List (List (Nat × Nat))).take 1 ∧
      r2.pairs = r1.pairs ∧ r2.st.pos = r1.st.pos ∧ r2.st.sourceGen = r1.st.sourceGen ∧
      r2.st.destGen = r1.st.destGen :=
  ⟨by decide,
    (draws_independent_of_mode_and_data sampleRand 40 false true [0x41, 0x42] [0x00, 0xff]
      ⟨[3, 48],
        [[(0, 0), (2, 3), (5, 2), (6, 1), (4, 7), (3, 4), (7, 6), (1, 5)],
         [(3, 2), (0, 0), (7, 7), (2, 3), (5, 6), (1, 5), (6, 4), (4, 1)]],
        ⟨65, 255, 255⟩⟩ rfl (by decide)).2 1 (by decide)⟩

/-- C13. Byte-boundary alignment of the main loop: in a run from fresh
generators, the state in which the processing of byte `k` starts (the final
state of the run over the first `k` bytes, from which the rest of the run
continues) has both masks all-zero when `k = 0` and both all-ones when `k > 0`;
byte `k` draws exactly 8 pairs, whose source indices and whose destination
indices are each a permutation of 0..7. -/
theorem byte_boundary_alignment (rand : Nat → Nat) (fuel : Nat) (d : Bool) (B : List Nat)
    (run : Run) (h : bitshift rand fuel d B = some run) :
    ∀ k, k < B.length →
      ∃ rk, bitshift rand fuel d (B.take k) = some rk ∧
        mainLoop rand fuel d (B.drop k) 0 rk.st
          = some ⟨run.out.drop k, run.pairs.drop k, run.st⟩ ∧
        (k = 0 → rk.st.sourceGen = 0 ∧ rk.st.destGen = 0) ∧
        (0 < k → rk.st.sourceGen = 255 ∧ rk.st.destGen = 255) ∧
        (run.pairs.getD k []).length = 8 ∧
        ((run.pairs.getD k []).map Prod.fst).Perm (List.range 8) ∧
        ((run.pairs.getD k []).map Prod.snd).Perm (List.range 8) := by
  intro k hk
  obtain ⟨rk, k1, k2, _, _⟩ := mainLoop_split rand fuel d B freshState run k (by omega) h
  obtain ⟨l1, _⟩ := mainLoop_pairs_length rand fuel d B 0 freshState run h
  have hperm := (mainLoop_pairs_perm rand fuel d B freshState run rfl rfl h).1
  obtain ⟨p1, p2, l8⟩ := hperm _ (getD_mem_of_lt run.pairs k [] (by omega))
  refine ⟨rk, k1, k2, ?_, ?_, l8, p1, p2⟩
  · intro hk0
    subst hk0
    have k1' : mainLoop rand fuel d [] 0 freshState = some rk := k1
    simp only [mainLoop, Option.some.injEq] at k1'
    subst k1'
    exact ⟨rfl, rfl⟩
  · intro hpos
    have hne : B.take k ≠ [] := by
      intro e
      have := congrArg List.length e
      rw [List.length_take, List.length_nil] at this
      omega
    exact mainLoop_final_masks rand fuel d (B.take k) freshState rk hne rfl rfl k1

/-- Witness for C13: the second byte (`k = 1`) of a two-byte encryption on the
sample draw sequence starts with both masks all-ones. -/
theorem byte_boundary_alignment_witness :
    bitshift sampleRand 40 false [0x41, 0x42]
      = some ⟨[3, 48],
          [[(0, 0), (2, 3), (5, 2), (6, 1), (4, 7), (3, 4), (7, 6), (1, 5)],
           [(3, 2), (0, 0), (7, 7), (2, 3), (5, 6), (1, 5), (6, 4), (4, 1)]],
          ⟨65, 255, 255⟩⟩ ∧
    ∃ rk, bitshift sampleRand 40 false (([0x41, 0x42] : List Nat).take 1) = some rk ∧
      (0 < 1 → rk.st.sourceGen = 255 ∧ rk.st.destGen = 255) :=
  ⟨by decide,
    match byte_boundary_alignment sampleRand 40 false [0x41, 0x42]
      ⟨[3, 48],
        [[(0, 0), (2, 3), (5, 2), (6, 1), (4, 7), (3, 4), (7, 6), (1, 5)],
         [(3, 2), (0, 0), (7, 7), (2, 3), (5, 6), (1, 5), (6, 4), (4, 1)]],
        ⟨65, 255, 255⟩⟩ (by decide) 1 (by decide) with
    | ⟨rk, h1, _, _, h4, _⟩ => ⟨rk, h1, h4⟩⟩

/-! ## Each output bit is a copy of one input bit -/

/-- With the pairs of one byte, bit `i` of the output byte is a copy of one bit
`a` of the input byte, and `a` depends on the pairs and the mode only. -/
theorem applyPairs_bit_source (d : Bool) (ps : List (Nat × Nat))
    (h1 : (ps.map Prod.fst).Perm (List.range 8)) (h2 : (ps.map Prod.snd).Perm (List.range 8))
    (i : Nat) (hi : i < 8) :
    ∃ a, a < 8 ∧ ∀ x, x < 256 → (applyPairs d x 0 ps).testBit i = x.testBit a := by
  have hlt := pairs_lt_of_perm ps h1 h2
  cases d with
  | false =>
    obtain ⟨p, hp, e⟩ := List.mem_map.1 (h2.mem_iff.2 (List.mem_range.2 hi))
    refine ⟨p.1, (hlt p hp).1, ?_⟩
    intro x hx
    rw [← e]
    exact applyPairs_encrypt_bit x hx ps h1 h2 p hp
  | true =>
    obtain ⟨p, hp, e⟩ := List.mem_map.1 (h1.mem_iff.2 (List.mem_range.2 hi))
    refine ⟨p.2, (hlt p hp).2, ?_⟩
    intro x hx
    rw [← e]
    exact applyPairs_decrypt_bit x hx ps h1 h2 p hp

theorem applyPairs_bitCount (d : Bool) (x : Nat) (hx : x < 256) (ps : List (Nat × Nat))
    (h1 : (ps.map Prod.fst).Perm (List.range 8)) (h2 : (ps.map Prod.snd).Perm (List.range 8)) :
    bitCount (applyPairs d x 0 ps) = bitCount x := by
  unfold bitCount
  cases d with
  | false =>
    rw [← List.Perm.countP_eq _ h2, ← List.Perm.countP_eq _ h1, List.countP_map,
      List.countP_map]
    apply List.countP_congr
    intro p hp
    simp only [Function.comp_apply]
    rw [applyPairs_encrypt_bit x hx ps h1 h2 p hp]
  | true =>
    rw [← List.Perm.countP_eq _ h1, ← List.Perm.countP_eq _ h2, List.countP_map,
      List.countP_map]
    apply List.countP_congr
    intro p hp
    simp only [Function.comp_apply]
    rw [applyPairs_decrypt_bit x hx ps h1 h2 p hp]

theorem applyPairs_zero_byte (d : Bool) (ps : List (Nat × Nat))
    (h1 : (ps.map Prod.fst).Perm (List.range 8)) (h2 : (ps.map Prod.snd).Perm (List.range 8)) :
    applyPairs d 0 0 ps = 0 := by
  apply Nat.eq_of_testBit_eq
  intro i
  rw [Nat.zero_testBit]
  by_cases hi : i < 8
  · obtain ⟨a, _, ha⟩ := applyPairs_bit_source d ps h1 h2 i hi
    rw [ha 0 (by decide), Nat.zero_testBit]
  · exact testBit_false_of_lt_256 _ i (applyPairs_lt d 0 0 (by decide) ps) (by omega)

theorem applyPairs_ones_byte (d : Bool) (ps : List (Nat × Nat))
    (h1 : (ps.map Prod.fst).Perm (List.range 8)) (h2 : (ps.map Prod.snd).Perm (List.range 8)) :
    applyPairs d 255 0 ps = 255 := by
  apply eq_255_of_testBit _ (applyPairs_lt d 255 0 (by decide) ps)
  intro i hi
  obtain ⟨a, ha8, ha⟩ := applyPairs_bit_source d ps h1 h2 i hi
  rw [ha 255 (by decide), testBit_255]
  simp [ha8]

/-- A bitwise operation `op` on bytes whose result bit is `f` of the operand
bits commutes with the bit mapping of one byte. -/
theorem applyPairs_bitwise (op : Nat → Nat → Nat) (f : Bool → Bool → Bool)
    (hf : f false false = false)
    (hop : ∀ x y i, (op x y).testBit i = f (x.testBit i) (y.testBit i))
    (d : Bool) (ps : List (Nat × Nat))
    (h1 : (ps.map Prod.fst).Perm (List.range 8)) (h2 : (ps.map Prod.snd).Perm (List.range 8))
    (x y : Nat) (hx : x < 256) (hy : y < 256) :
    applyPairs d (op x y) 0 ps = op (applyPairs d x 0 ps) (applyPairs d y 0 ps) := by
  have hxy : op x y < 256 := by
    by_contra hc
    have hge : 2 ^ 8 ≤ op x y := by
      have : (2 : Nat) ^ 8 = 256 := by decide
      omega
    obtain ⟨i, hi, hb⟩ := Nat.ge_two_pow_implies_high_bit_true hge
    rw [hop, testBit_false_of_lt_256 x i hx hi, testBit_false_of_lt_256 y i hy hi, hf] at hb
    exact Bool.false_ne_true hb
  apply Nat.eq_of_testBit_eq
  intro i
  rw [hop]
  by_cases hi : i < 8
  · obtain ⟨a, _, ha⟩ := applyPairs_bit_source d ps h1 h2 i hi
    rw [ha _ hxy, ha x hx, ha y hy, hop]
  · rw [testBit_false_of_lt_256 _ i (applyPairs_lt d _ 0 (by decide) ps) (by omega),
      testBit_false_of_lt_256 _ i (applyPairs_lt d x 0 (by decide) ps) (by omega),
      testBit_false_of_lt_256 _ i (applyPairs_lt d y 0 (by decide) ps) (by omega), hf]

theorem zipWith_applyPairs_op (op : Nat → Nat → Nat) (d : Bool) :
    ∀ (P : List (List (Nat × Nat))) (X Y : List Nat),
      (∀ ps ∈ P, ∀ x ∈ X, ∀ y ∈ Y,
        applyPairs d (op x y) 0 ps = op (applyPairs d x 0 ps) (applyPairs d y 0 ps)) →
      List.zipWith (fun x ps => applyPairs d x 0 ps) (List.zipWith op X Y) P
        = List.zipWith op (List.zipWith (fun x ps => applyPairs d x 0 ps) X P)
            (List.zipWith (fun x ps => applyPairs d x 0 ps) Y P) := by
  intro P
  induction P with
  | nil => intro X Y _; simp
  | cons ps P ih =>
    intro X Y h
    cases X with
    | nil => simp
    | cons x X =>
      cases Y with
      | nil => simp
      | cons y Y =>
        simp only [List.zipWith_cons_cons]
        rw [h ps (List.mem_cons_self _ _) x (List.mem_cons_self _ _) y (List.mem_cons_self _ _),
          ih X Y (fun qs hq a ha b hb => h qs (List.mem_cons_of_mem _ hq) a
            (List.mem_cons_of_mem _ ha) b (List.mem_cons_of_mem _ hb))]

theorem mainLoop_out_lt (rand : Nat → Nat) (fuel : Nat) (d : Bool) :
    ∀ (B : List Nat) (st : GenState) (run : Run), mainLoop rand fuel d B 0 st = some run →
      ∀ y ∈ run.out, y < 256 := by
  intro B
  induction B with
  | nil =>
    intro st run h y hy
    simp only [mainLoop, Option.some.injEq] at h
    subst h
    simp at hy
  | cons x xs ih =>
    intro st run h y hy
    obtain ⟨ps, st1, run', _, h2, e⟩ := mainLoop_cons rand fuel d x xs 0 st run h
    subst e
    simp only [List.mem_cons] at hy
    rcases hy with rfl | hy
    · exact applyPairs_lt d x 0 (by decide) ps
    · exact ih st1 run' h2 y hy

theorem mainLoop_out_eq (rand : Nat → Nat) (fuel : Nat) (d : Bool) (B : List Nat)
    (st : GenState) (run : Run) (h : mainLoop rand fuel d B 0 st = some run) :
    run.out = List.zipWith (fun x ps => applyPairs d x 0 ps) B run.pairs := by
  have h2 := mainLoop_data_indep rand fuel d B st run h d B rfl
  rw [h] at h2
  simp only [Option.some.injEq] at h2
  exact congrArg Run.out h2

/-- Reverse round trip of the main loop from any byte boundary. -/
theorem mainLoop_round_trip_rev (rand : Nat → Nat) (fuel : Nat) :
    ∀ (B : List Nat) (st : GenState) (run : Run), (∀ x ∈ B, x < 256) →
      resetRecord st.sourceGen = 0 → resetRecord st.destGen = 0 →
      mainLoop rand fuel true B 0 st = some run →
      mainLoop rand fuel false run.out 0 st = some ⟨B, run.pairs, run.st⟩ := by
  intro B
  induction B with
  | nil =>
    intro st run _ _ _ h
    simp only [mainLoop, Option.some.injEq] at h
    subst h
    rfl
  | cons x xs ih =>
    intro st run hB hs hd h
    obtain ⟨ps, st1, run', h1, h2, e⟩ := mainLoop_cons rand fuel true x xs 0 st run h
    subst e
    obtain ⟨p1, p2, m1, m2, _⟩ := innerLoop_boundary rand fuel true x 0 st _ _ ps st1 hs hd h1
    have hx : x < 256 := hB x (List.mem_cons_self x xs)
    have henc := (innerLoop_data_indep rand fuel true 8 x 0 st _ _ ps st1 h1).2.2 false
      (applyPairs true x 0 ps) 0
    rw [applyPairs_round_trip_rev x hx ps p1 p2] at henc
    have hrest := ih st1 run' (fun y hy => hB y (List.mem_cons_of_mem x hy))
      (by rw [m1]; rfl) (by rw [m2]; rfl) h2
    exact mainLoop_cons_of rand fuel false _ run'.out 0 st _ _ ps st1 _ henc hrest

/-- C14. Bit-count preservation: in every run that returns, in either mode, the
output byte at each position has exactly as many set bits as the input byte at
that position; an input byte 0x00 is output as 0x00 and an input byte 0xFF as
0xFF. -/
theorem bit_count_preserved (rand : Nat → Nat) (fuel : Nat) (d : Bool) (B : List Nat)
    (run : Run) (hB : ∀ x ∈ B, x < 256) (h : bitshift rand fuel d B = some run) :
    ∀ j, j < B.length →
      bitCount (run.out.getD j 0) = bitCount (B.getD j 0) ∧
      (B.getD j 0 = 0x00 → run.out.getD j 0 = 0x00) ∧
      (B.getD j 0 = 0xFF → run.out.getD j 0 = 0xFF) := by
  intro j hj
  obtain ⟨l1, _⟩ := mainLoop_pairs_length rand fuel d B 0 freshState run h
  have hjp : j < run.pairs.length := by omega
  have hperm := (mainLoop_pairs_perm rand fuel d B freshState run rfl rfl h).1
  obtain ⟨p1, p2, _⟩ := hperm _ (getD_mem_of_lt run.pairs j [] hjp)
  have hx : B.getD j 0 < 256 := hB _ (getD_mem_of_lt B j 0 hj)
  have hoj : run.out.getD j 0 = applyPairs d (B.getD j 0) 0 (run.pairs.getD j []) := by
    rw [mainLoop_out_eq rand fuel d B freshState run h]
    exact getD_zipWith_applyPairs d B run.pairs j hj hjp
  rw [hoj]
  refine ⟨applyPairs_bitCount d _ hx _ p1 p2, ?_, ?_⟩
  · intro e
    rw [e]
    exact applyPairs_zero_byte d _ p1 p2
  · intro e
    rw [e]
    exact applyPairs_ones_byte d _ p1 p2

/-- Witness for C14: the input [0x00, 0xff, 0x17] on the sample draw sequence;
byte 2 (0x17, four set bits) is output as 108 (four set bits). -/
theorem bit_count_preserved_witness :
    bitshift sampleRand 40 false [0x00, 0xff, 0x17]
      = some ⟨[0, 255, 108],
          [[(0, 0), (2, 3), (5, 2), (6, 1), (4, 7), (3, 4), (7, 6), (1, 5)],
           [(3, 2), (0, 0), (7, 7), (2, 3), (5, 6), (1, 5), (6, 4), (4, 1)],
           [(4, 6), (2, 5), (1, 2), (0, 3), (7, 7), (3, 0), (6, 1), (5, 4)]],
          ⟨93, 255, 255⟩⟩ ∧
    bitCount (([0, 255, 108] : List Nat).getD 2 0)
      = bitCount (([0x00, 0xff, 0x17] : List Nat).getD 2 0) :=
  ⟨by decide,
    ((bit_count_preserved sampleRand 40 false [0x00, 0xff, 0x17]
      ⟨[0, 255, 108],
        [[(0, 0), (2, 3), (5, 2), (6, 1), (4, 7), (3, 4), (7, 6), (1, 5)],
         [(3, 2), (0, 0), (7, 7), (2, 3), (5, 6), (1, 5), (6, 4), (4, 1)],
         [(4, 6), (2, 5), (1, 2), (0, 3), (7, 7), (3, 0), (6, 1), (5, 4)]],
        ⟨93, 255, 255⟩⟩ (by decide) (by decide)) 2 (by decide)).1⟩

/-- C15. Reverse round trip: whenever the decrypting run on `B` from fresh
generators returns, the encrypting run on its output, on the same draw
sequence, returns exactly `B`.  Moreover, on that draw sequence both transforms
are defined on every byte sequence `B'` of the length of `B`, map it to a byte
sequence of the same length, and undo each other in both orders: they are
mutually inverse bijections on the byte sequences of that length. -/
theorem reverse_round_trip (rand : Nat → Nat) (fuel : Nat) (B : List Nat) (run : Run)
    (hB : ∀ x ∈ B, x < 256) (h : bitshift rand fuel true B = some run) :
    bitshift rand fuel false run.out = some ⟨B, run.pairs, run.st⟩ ∧
    ∀ B' : List Nat, B'.length = B.length → (∀ x ∈ B', x < 256) →
      ∃ rE rD, bitshift rand fuel false B' = some rE ∧
        bitshift rand fuel true B' = some rD ∧
        rE.out.length = B.length ∧ (∀ y ∈ rE.out, y < 256) ∧
        rD.out.length = B.length ∧ (∀ y ∈ rD.out, y < 256) ∧
        bitshift rand fuel true rE.out = some ⟨B', rE.pairs, rE.st⟩ ∧
        bitshift rand fuel false rD.out = some ⟨B', rD.pairs, rD.st⟩ := by
  refine ⟨mainLoop_round_trip_rev rand fuel B freshState run hB rfl rfl h, ?_⟩
  intro B' hlen hB'
  have hE := mainLoop_data_indep rand fuel true B freshState run h false B' hlen
  have hD := mainLoop_data_indep rand fuel true B freshState run h true B' hlen
  refine ⟨_, _, hE, hD, ?_, mainLoop_out_lt rand fuel false B' freshState _ hE, ?_,
    mainLoop_out_lt rand fuel true B' freshState _ hD,
    mainLoop_round_trip rand fuel B' freshState _ hB' rfl rfl hE,
    mainLoop_round_trip_rev rand fuel B' freshState _ hB' rfl rfl hD⟩
  · rw [(mainLoop_pairs_length rand fuel false B' 0 freshState _ hE).2, hlen]
  · rw [(mainLoop_pairs_length rand fuel true B' 0 freshState _ hD).2, hlen]

/-- Witness for C15: decrypting [0x41, 0x42] on the sample draw sequence and
encrypting the result. -/
theorem reverse_round_trip_witness :
    bitshift sampleRand 40 true [0x41, 0x42]
      = some ⟨[129, 48],
          [[(0, 0), (2, 3), (5, 2), (6, 1), (4, 7), (3, 4), (7, 6), (1, 5)],
           [(3, 2), (0, 0), (7, 7), (2, 3), (5, 6), (1, 5), (6, 4), (4, 1)]],
          ⟨65, 255, 255⟩⟩ ∧
    bitshift sampleRand 40 false [129, 48]
      = some ⟨[0x41, 0x42],
          [[(0, 0), (2, 3), (5, 2), (6, 1), (4, 7), (3, 4), (7, 6), (1, 5)],
           [(3, 2), (0, 0), (7, 7), (2, 3), (5, 6), (1, 5), (6, 4), (4, 1)]],
          ⟨65, 255, 255⟩⟩ :=
  ⟨by decide,
    (reverse_round_trip sampleRand 40 [0x41, 0x42]
      ⟨[129, 48],
        [[(0, 0), (2, 3), (5, 2), (6, 1), (4, 7), (3, 4), (7, 6), (1, 5)],
         [(3, 2), (0, 0), (7, 7), (2, 3), (5, 6), (1, 5), (6, 4), (4, 1)]],
        ⟨65, 255, 255⟩⟩ (by decide) (by decide)).1⟩

/-- C16. Bitwise linearity: for two inputs `X` and `Y` of equal length, in
either mode, whenever the run on `X` returns, the run on `Y` returns and the
run on the bytewise XOR of `X` and `Y` returns the bytewise XOR of the two
outputs; likewise for bytewise OR and bytewise AND. -/
theorem bitwise_linearity (rand : Nat → Nat) (fuel : Nat) (d : Bool) (X Y : List Nat)
    (rx : Run) (hX : ∀ x ∈ X, x < 256) (hY : ∀ y ∈ Y, y < 256) (hlen : Y.length = X.length)
    (hx : bitshift rand fuel d X = some rx) :
    ∃ ry, bitshift rand fuel d Y = some ry ∧
      bitshift rand fuel d (List.zipWith (fun x y => x ^^^ y) X Y)
        = some ⟨List.zipWith (fun x y => x ^^^ y) rx.out ry.out, rx.pairs, rx.st⟩ ∧
      bitshift rand fuel d (List.zipWith (fun x y => x ||| y) X Y)
        = some ⟨List.zipWith (fun x y => x ||| y) rx.out ry.out, rx.pairs, rx.st⟩ ∧
      bitshift rand fuel d (List.zipWith (fun x y => x &&& y) X Y)
        = some ⟨List.zipWith (fun x y => x &&& y) rx.out ry.out, rx.pairs, rx.st⟩ := by
  have hperm := (mainLoop_pairs_perm rand fuel d X freshState rx rfl rfl hx).1
  have hxo := mainLoop_out_eq rand fuel d X freshState rx hx
  have hy := mainLoop_data_indep rand fuel d X freshState rx hx d Y hlen
  have key : ∀ (op : Nat → Nat → Nat) (f : Bool → Bool → Bool), f false false = false →
      (∀ x y i, (op x y).testBit i = f (x.testBit i) (y.testBit i)) →
      bitshift rand fuel d (List.zipWith op X Y)
        = some ⟨List.zipWith op rx.out
            (List.zipWith (fun x ps => applyPairs d x 0 ps) Y rx.pairs), rx.pairs, rx.st⟩ := by
    intro op f hf hop
    have hz := mainLoop_data_indep rand fuel d X freshState rx hx d (List.zipWith op X Y)
      (by rw [List.length_zipWith, hlen, Nat.min_self])
    have hzip := zipWith_applyPairs_op op d rx.pairs X Y (fun ps hps x hxm y hym =>
      applyPairs_bitwise op f hf hop d ps (hperm ps hps).1 (hperm ps hps).2.1 x y
        (hX x hxm) (hY y hym))
    rw [hzip, ← hxo] at hz
    exact hz
  refine ⟨_, hy, ?_, ?_, ?_⟩
  · exact key (fun x y => x ^^^ y) Bool.xor rfl (fun x y i => Nat.testBit_xor x y i)
  · exact key (fun x y => x ||| y) or rfl (fun x y i => Nat.testBit_or x y i)
  · exact key (fun x y => x &&& y) and rfl (fun x y i => Nat.testBit_and x y i)

/-- Witness for C16: X = [0x41, 0x42] and Y = [0x9c, 0x0f] on the sample draw
sequence. -/
theorem bitwise_linearity_witness :
    bitshift sampleRand 40 false [0x41, 0x42]
      = some ⟨[3, 48],
          [[(0, 0), (2, 3), (5, 2), (6, 1), (4, 7), (3, 4), (7, 6), (1, 5)],
           [(3, 2), (0, 0), (7, 7), (2, 3), (5, 6), (1, 5), (6, 4), (4, 1)]],
          ⟨65, 255, 255⟩⟩ ∧
    ∃ ry, bitshift sampleRand 40 false [0x9c, 0x0f] = some ry ∧
      bitshift sampleRand 40 false (List.zipWith (fun x y => x ^^^ y) [0x41, 0x42] [0x9c, 0x0f])
        = some ⟨List.zipWith (fun x y => x ^^^ y) [3, 48] ry.out,
            [[(0, 0), (2, 3), (5, 2), (6, 1), (4, 7), (3, 4), (7, 6), (1, 5)],
             [(3, 2), (0, 0), (7, 7), (2, 3), (5, 6), (1, 5), (6, 4), (4, 1)]],
            ⟨65, 255, 255⟩⟩ :=
  ⟨by decide,
    match bitwise_linearity sampleRand 40 false [0x41, 0x42] [0x9c, 0x0f]
      ⟨[3, 48],
        [[(0, 0), (2, 3), (5, 2), (6, 1), (4, 7), (3, 4), (7, 6), (1, 5)],
         [(3, 2), (0, 0), (7, 7), (2, 3), (5, 6), (1, 5), (6, 4), (4, 1)]],
        ⟨65, 255, 255⟩⟩ (by decide) (by decide) rfl (by decide) with
    | ⟨ry, h1, h2, _⟩ => ⟨ry, h1, h2⟩⟩

end Bitshift
